import Mathlib

/-!
Shallow embedding of `geohash.go` (package geohash): the Morton codec
(`interleave` / `deinterleave`), the `fastGeoHash` value type and its
constructors (`FromCoordinates`, `FromHash`), the adjacency engine
(`GetAdjacent`, `GetNeighbors`) and the range-coverage builder
(`GetHashRangesInside`).

Machine integers are modelled as `Nat` with explicit `% 2^32` / `% 2^64`
wherever the Go code can wrap.  Go's `nil` result (a missing neighbor cell)
is modelled as `Option`; a `nil`-pointer dereference (a Go panic) is
modelled as propagating `none`.
-/

namespace Geohash

/-! ### Morton codec masks (source lines 336-341) -/

def b0 : Nat := 0x5555555555555555
def b1 : Nat := 0x3333333333333333
def b2 : Nat := 0x0F0F0F0F0F0F0F0F
def b3 : Nat := 0x00FF00FF00FF00FF
def b4 : Nat := 0x0000FFFF0000FFFF
def b5 : Nat := 0x00000000FFFFFFFF

/-! ### interleave / deinterleave (source lines 343-391)

In Go both run on `uint64`.  No intermediate value can reach `2^64`
(the inputs are `uint32` widened to `uint64`, and every step is masked),
so plain `Nat` arithmetic agrees with the Go semantics; theorems carry
the `< 2^32` / `< 2^64` input bounds of the Go types. -/

/-- One doubling step of the bit-parallel spread: `v = (v | (v << s)) & m`. -/
def spreadStep (v s m : Nat) : Nat := (v ||| (v <<< s)) &&& m

/-- The five doubling steps applied to one 32-bit operand of `interleave`
(the `i`-chain / `j`-chain of source lines 348-361). -/
def spread (v : Nat) : Nat :=
  spreadStep (spreadStep (spreadStep (spreadStep (spreadStep v 16 b4) 8 b3) 4 b2) 2 b1) 1 b0

/-- `interleave(x, y uint32) (z uint64)`, source lines 343-365:
`z = i | (j << 1)` where `i`/`j` are the spread forms of `x`/`y`. -/
def interleave (x y : Nat) : Nat := spread x ||| (spread y <<< 1)

/-- One contracting step of the bit-parallel compact: `v = (v | (v >> s)) & m`. -/
def compactStep (v s m : Nat) : Nat := (v ||| (v >>> s)) &&& m

/-- The five contracting steps applied to one operand of `deinterleave`
(the `i`-chain / `j`-chain of source lines 370-386), including the
initial `& b0`. -/
def compact (v : Nat) : Nat :=
  compactStep (compactStep (compactStep (compactStep (compactStep (v &&& b0) 1 b1) 2 b2) 4 b3) 8 b4) 16 b5

/-- `deinterleave(z uint64) (x, y uint32)`, source lines 366-391.
The final `% 2^32` is Go's `uint32(...)` conversion. -/
def deinterleave (z : Nat) : Nat × Nat :=
  (compact z % 2^32, compact (z >>> 1) % 2^32)

/-! ### Bit-level characterization of the codec -/

theorem testBit_ge {x n j : Nat} (hx : x < 2^n) (hj : n ≤ j) : x.testBit j = false :=
  Nat.testBit_lt_two_pow (lt_of_lt_of_le hx (Nat.pow_le_pow_right (by norm_num) hj))

theorem b0_testBit (k : Nat) : b0.testBit k = (decide (k < 64) && decide (k % 2 = 0)) := by
  rcases Nat.lt_or_ge k 64 with h | h
  · interval_cases k <;> decide
  · rw [testBit_ge (x := b0) (by norm_num [b0]) h]
    simp [Nat.not_lt_of_le h]

theorem b1_testBit (k : Nat) : b1.testBit k = (decide (k < 64) && decide (k % 4 < 2)) := by
  rcases Nat.lt_or_ge k 64 with h | h
  · interval_cases k <;> decide
  · rw [testBit_ge (x := b1) (by norm_num [b1]) h]
    simp [Nat.not_lt_of_le h]

theorem b2_testBit (k : Nat) : b2.testBit k = (decide (k < 64) && decide (k % 8 < 4)) := by
  rcases Nat.lt_or_ge k 64 with h | h
  · interval_cases k <;> decide
  · rw [testBit_ge (x := b2) (by norm_num [b2]) h]
    simp [Nat.not_lt_of_le h]

theorem b3_testBit (k : Nat) : b3.testBit k = (decide (k < 64) && decide (k % 16 < 8)) := by
  rcases Nat.lt_or_ge k 64 with h | h
  · interval_cases k <;> decide
  · rw [testBit_ge (x := b3) (by norm_num [b3]) h]
    simp [Nat.not_lt_of_le h]

theorem b4_testBit (k : Nat) : b4.testBit k = (decide (k < 64) && decide (k % 32 < 16)) := by
  rcases Nat.lt_or_ge k 64 with h | h
  · interval_cases k <;> decide
  · rw [testBit_ge (x := b4) (by norm_num [b4]) h]
    simp [Nat.not_lt_of_le h]

theorem b5_testBit (k : Nat) : b5.testBit k = decide (k < 32) := by
  rcases Nat.lt_or_ge k 64 with h | h
  · interval_cases k <;> decide
  · rw [testBit_ge (x := b5) (by norm_num [b5]) h]
    refine (decide_eq_false ?_).symm
    omega

/-- Stage 16 of the spread: bit `j` of `x` moves to position `2j - j % 16`. -/
theorem spread_inv_16 (x : Nat) (hx : x < 2^32) :
    ∀ t, (spreadStep x 16 b4).testBit t =
      (decide (t % 32 < 16) && x.testBit (16 * (t / 32) + t % 16)) := by
  intro t
  unfold spreadStep
  rw [Nat.testBit_and, Nat.testBit_or, Nat.testBit_shiftLeft, b4_testBit]
  by_cases hm : t % 32 < 16
  · by_cases h64 : t < 64
    · by_cases hlo : t < 32
      · have e1 : 16 * (t / 32) + t % 16 = t := by omega
        have h16 : ¬(16 ≤ t) ∨ (16 ≤ t ∧ x.testBit (t - 16) = x.testBit (t - 16)) := by
          left; omega
        have hns : ¬(t ≥ 16) := by omega
        simp [e1, hm, h64, hns]
      · -- 32 ≤ t < 48: the contribution comes from the shifted copy
        have h32 : 32 ≤ t ∧ t < 48 := by omega
        have e1 : 16 * (t / 32) + t % 16 = t - 16 := by omega
        have hz : x.testBit t = false := testBit_ge hx (by omega)
        have hs : t ≥ 16 := by omega
        simp [e1, hm, h64, hz, hs]
    · have hj : 32 ≤ 16 * (t / 32) + t % 16 := by omega
      simp [hm, h64, testBit_ge hx hj]
  · simp [hm]

/-- Stage 8 of the spread. -/
theorem spread_inv_8 (x w : Nat) (hx : x < 2^32)
    (hw : ∀ t, w.testBit t = (decide (t % 32 < 16) && x.testBit (16 * (t / 32) + t % 16))) :
    ∀ t, (spreadStep w 8 b3).testBit t =
      (decide (t % 16 < 8) && x.testBit (8 * (t / 16) + t % 8)) := by
  intro t
  unfold spreadStep
  rw [Nat.testBit_and, Nat.testBit_or, Nat.testBit_shiftLeft, b3_testBit, hw t, hw (t - 8)]
  by_cases hm : t % 16 < 8
  · by_cases h64 : t < 64
    · by_cases ha : t % 32 < 8
      · have e1 : 16 * (t / 32) + t % 16 = 8 * (t / 16) + t % 8 := by omega
        have hc : t % 32 < 16 := by omega
        by_cases h8 : 8 ≤ t
        · have hd : ¬((t - 8) % 32 < 16) := by omega
          simp [e1, hm, h64, hc, hd, h8]
        · simp [e1, hm, h64, hc, h8]
      · have hb : 16 ≤ t % 32 ∧ t % 32 < 24 := by omega
        have h8 : 8 ≤ t := by omega
        have hc : (t - 8) % 32 < 16 := by omega
        have e1 : 16 * ((t - 8) / 32) + (t - 8) % 16 = 8 * (t / 16) + t % 8 := by omega
        have hd : ¬(t % 32 < 16) := by omega
        simp [e1, hm, h64, hd, h8, hc]
    · have hj : 32 ≤ 8 * (t / 16) + t % 8 := by omega
      simp [hm, h64, testBit_ge hx hj]
  · simp [hm]

/-- Stage 4 of the spread. -/
theorem spread_inv_4 (x w : Nat) (hx : x < 2^32)
    (hw : ∀ t, w.testBit t = (decide (t % 16 < 8) && x.testBit (8 * (t / 16) + t % 8))) :
    ∀ t, (spreadStep w 4 b2).testBit t =
      (decide (t % 8 < 4) && x.testBit (4 * (t / 8) + t % 4)) := by
  intro t
  unfold spreadStep
  rw [Nat.testBit_and, Nat.testBit_or, Nat.testBit_shiftLeft, b2_testBit, hw t, hw (t - 4)]
  by_cases hm : t % 8 < 4
  · by_cases h64 : t < 64
    · by_cases ha : t % 16 < 4
      · have e1 : 8 * (t / 16) + t % 8 = 4 * (t / 8) + t % 4 := by omega
        have hc : t % 16 < 8 := by omega
        by_cases h4 : 4 ≤ t
        · have hd : ¬((t - 4) % 16 < 8) := by omega
          simp [e1, hm, h64, hc, hd, h4]
        · simp [e1, hm, h64, hc, h4]
      · have hb : 8 ≤ t % 16 ∧ t % 16 < 12 := by omega
        have h4 : 4 ≤ t := by omega
        have hc : (t - 4) % 16 < 8 := by omega
        have e1 : 8 * ((t - 4) / 16) + (t - 4) % 8 = 4 * (t / 8) + t % 4 := by omega
        have hd : ¬(t % 16 < 8) := by omega
        simp [e1, hm, h64, hd, h4, hc]
    · have hj : 32 ≤ 4 * (t / 8) + t % 4 := by omega
      simp [hm, h64, testBit_ge hx hj]
  · simp [hm]

/-- Stage 2 of the spread. -/
theorem spread_inv_2 (x w : Nat) (hx : x < 2^32)
    (hw : ∀ t, w.testBit t = (decide (t % 8 < 4) && x.testBit (4 * (t / 8) + t % 4))) :
    ∀ t, (spreadStep w 2 b1).testBit t =
      (decide (t % 4 < 2) && x.testBit (2 * (t / 4) + t % 2)) := by
  intro t
  unfold spreadStep
  rw [Nat.testBit_and, Nat.testBit_or, Nat.testBit_shiftLeft, b1_testBit, hw t, hw (t - 2)]
  by_cases hm : t % 4 < 2
  · by_cases h64 : t < 64
    · by_cases ha : t % 8 < 2
      · have e1 : 4 * (t / 8) + t % 4 = 2 * (t / 4) + t % 2 := by omega
        have hc : t % 8 < 4 := by omega
        by_cases h2 : 2 ≤ t
        · have hd : ¬((t - 2) % 8 < 4) := by omega
          simp [e1, hm, h64, hc, hd, h2]
        · simp [e1, hm, h64, hc, h2]
      · have hb : 4 ≤ t % 8 ∧ t % 8 < 6 := by omega
        have h2 : 2 ≤ t := by omega
        have hc : (t - 2) % 8 < 4 := by omega
        have e1 : 4 * ((t - 2) / 8) + (t - 2) % 4 = 2 * (t / 4) + t % 2 := by omega
        have hd : ¬(t % 8 < 4) := by omega
        simp [e1, hm, h64, hd, h2, hc]
    · have hj : 32 ≤ 2 * (t / 4) + t % 2 := by omega
      simp [hm, h64, testBit_ge hx hj]
  · simp [hm]

/-- Stage 1 (final) of the spread. -/
theorem spread_inv_1 (x w : Nat) (hx : x < 2^32)
    (hw : ∀ t, w.testBit t = (decide (t % 4 < 2) && x.testBit (2 * (t / 4) + t % 2))) :
    ∀ t, (spreadStep w 1 b0).testBit t =
      (decide (t % 2 = 0) && x.testBit (t / 2)) := by
  intro t
  unfold spreadStep
  rw [Nat.testBit_and, Nat.testBit_or, Nat.testBit_shiftLeft, b0_testBit, hw t, hw (t - 1)]
  by_cases hm : t % 2 = 0
  · by_cases h64 : t < 64
    · by_cases ha : t % 4 < 1
      · have e1 : 2 * (t / 4) + t % 2 = t / 2 := by omega
        have hc : t % 4 < 2 := by omega
        by_cases h1 : 1 ≤ t
        · have hd : ¬((t - 1) % 4 < 2) := by omega
          simp [e1, hm, h64, hc, hd, h1]
          congr 1
          omega
        · simp [e1, hm, h64, hc, h1]
          congr 1
          omega
      · have hb : 2 ≤ t % 4 ∧ t % 4 < 3 := by omega
        have h1 : 1 ≤ t := by omega
        have hc : (t - 1) % 4 < 2 := by omega
        have e1 : 2 * ((t - 1) / 4) + (t - 1) % 2 = t / 2 := by omega
        have hd : ¬(t % 4 < 2) := by omega
        simp [e1, hm, h64, hd, h1, hc]
    · have hj : 32 ≤ t / 2 := by omega
      simp [hm, h64, testBit_ge hx hj]
  · simp [hm]

/-- Bit `k` of the spread form of a 32-bit value: the spread places bit
`k / 2` of the input at every even position `k`. -/
theorem spread_testBit (x k : Nat) (hx : x < 2^32) :
    (spread x).testBit k = (decide (k % 2 = 0) && x.testBit (k / 2)) := by
  have h : ∀ t, (spread x).testBit t = (decide (t % 2 = 0) && x.testBit (t / 2)) := by
    unfold spread
    exact spread_inv_1 x _ hx (spread_inv_2 x _ hx (spread_inv_4 x _ hx
      (spread_inv_8 x _ hx (spread_inv_16 x hx))))
  exact h k

/-- The Morton code's bit layout: even bits come from `x`, odd bits from `y`. -/
theorem interleave_testBit (x y k : Nat) (hx : x < 2^32) (hy : y < 2^32) :
    (interleave x y).testBit k =
      (if k % 2 = 0 then x.testBit (k / 2) else y.testBit (k / 2)) := by
  unfold interleave
  rw [Nat.testBit_or, Nat.testBit_shiftLeft, spread_testBit x k hx]
  by_cases h2 : k % 2 = 0
  · rcases Nat.eq_zero_or_pos k with h0 | h0
    · subst h0; simp
    · have h1 : (1:Nat) ≤ k := h0
      rw [spread_testBit y (k - 1) hy]
      have h3 : ¬((k - 1) % 2 = 0) := by omega
      simp [h2, h3]
  · have h1 : (1:Nat) ≤ k := by omega
    rw [spread_testBit y (k - 1) hy]
    have h3 : (k - 1) % 2 = 0 := by omega
    have h4 : (k - 1) / 2 = k / 2 := by omega
    simp [h2, h3, h4, h1]

theorem interleave_lt (x y : Nat) : interleave x y < 2^64 := by
  have h1 : spread x ≤ b0 := Nat.and_le_right
  have h2 : spread y ≤ b0 := Nat.and_le_right
  have h3 : spread y <<< 1 < 2^64 := by
    rw [Nat.shiftLeft_eq]
    calc spread y * 2^1 ≤ b0 * 2 := by omega
      _ < 2^64 := by norm_num [b0]
  exact Nat.or_lt_two_pow (lt_of_le_of_lt h1 (by norm_num [b0])) h3

/-- Base stage of the compact: mask with `b0`, then contract by 1. -/
theorem compact_inv_1 (v : Nat) (hv : v < 2^64) :
    ∀ t, (compactStep (v &&& b0) 1 b1).testBit t =
      (decide (t % 4 < 2) && v.testBit (2 * (2 * (t / 4) + t % 2))) := by
  intro t
  unfold compactStep
  rw [Nat.testBit_and, Nat.testBit_or, Nat.testBit_shiftRight, b1_testBit,
    Nat.testBit_and, Nat.testBit_and, b0_testBit, b0_testBit]
  by_cases hm : t % 4 < 2
  · by_cases h64 : t < 64
    · by_cases ha : t % 2 = 0
      · have e1 : 2 * (2 * (t / 4) + t % 2) = t := by omega
        have hb : ¬((1 + t) % 2 = 0) := by omega
        simp [e1, hm, h64, ha, hb]
        congr 1
        omega
      · have e1 : 2 * (2 * (t / 4) + t % 2) = 1 + t := by omega
        have hb : (1 + t) % 2 = 0 := by omega
        have hc : 1 + t < 64 := by omega
        simp [e1, hm, h64, ha, hb, hc]
    · have hj : 64 ≤ 2 * (2 * (t / 4) + t % 2) := by omega
      have hb : ¬(1 + t < 64) := by omega
      simp [hm, h64, hb, testBit_ge hv hj]
  · simp [hm]

/-- Stage 2 of the compact. -/
theorem compact_inv_2 (v w : Nat) (hv : v < 2^64)
    (hw : ∀ t, w.testBit t = (decide (t % 4 < 2) && v.testBit (2 * (2 * (t / 4) + t % 2)))) :
    ∀ t, (compactStep w 2 b2).testBit t =
      (decide (t % 8 < 4) && v.testBit (2 * (4 * (t / 8) + t % 4))) := by
  intro t
  unfold compactStep
  rw [Nat.testBit_and, Nat.testBit_or, Nat.testBit_shiftRight, b2_testBit, hw t, hw (2 + t)]
  by_cases hm : t % 8 < 4
  · by_cases h64 : t < 64
    · by_cases ha : t % 8 < 2
      · have e1 : 2 * (2 * (t / 4) + t % 2) = 2 * (4 * (t / 8) + t % 4) := by omega
        have hc : t % 4 < 2 := by omega
        have hd : ¬((2 + t) % 4 < 2) := by omega
        simp [e1, hm, h64, hc, hd]
      · have hb : 2 ≤ t % 8 ∧ t % 8 < 4 := by omega
        have hc : ¬(t % 4 < 2) := by omega
        have hd : (2 + t) % 4 < 2 := by omega
        have e1 : 2 * (2 * ((2 + t) / 4) + (2 + t) % 2) = 2 * (4 * (t / 8) + t % 4) := by omega
        simp [e1, hm, h64, hc, hd]
        congr 1
        omega
    · have hj : 64 ≤ 2 * (4 * (t / 8) + t % 4) := by omega
      simp [hm, h64, testBit_ge hv hj]
  · simp [hm]

/-- Stage 4 of the compact. -/
theorem compact_inv_4 (v w : Nat) (hv : v < 2^64)
    (hw : ∀ t, w.testBit t = (decide (t % 8 < 4) && v.testBit (2 * (4 * (t / 8) + t % 4)))) :
    ∀ t, (compactStep w 4 b3).testBit t =
      (decide (t % 16 < 8) && v.testBit (2 * (8 * (t / 16) + t % 8))) := by
  intro t
  unfold compactStep
  rw [Nat.testBit_and, Nat.testBit_or, Nat.testBit_shiftRight, b3_testBit, hw t, hw (4 + t)]
  by_cases hm : t % 16 < 8
  · by_cases h64 : t < 64
    · by_cases ha : t % 16 < 4
      · have e1 : 2 * (4 * (t / 8) + t % 4) = 2 * (8 * (t / 16) + t % 8) := by omega
        have hc : t % 8 < 4 := by omega
        have hd : ¬((4 + t) % 8 < 4) := by omega
        simp [e1, hm, h64, hc, hd]
      · have hb : 4 ≤ t % 16 ∧ t % 16 < 8 := by omega
        have hc : ¬(t % 8 < 4) := by omega
        have hd : (4 + t) % 8 < 4 := by omega
        have e1 : 2 * (4 * ((4 + t) / 8) + (4 + t) % 4) = 2 * (8 * (t / 16) + t % 8) := by omega
        simp [e1, hm, h64, hc, hd]
        congr 1
        omega
    · have hj : 64 ≤ 2 * (8 * (t / 16) + t % 8) := by omega
      simp [hm, h64, testBit_ge hv hj]
  · simp [hm]

/-- Stage 8 of the compact. -/
theorem compact_inv_8 (v w : Nat) (hv : v < 2^64)
    (hw : ∀ t, w.testBit t = (decide (t % 16 < 8) && v.testBit (2 * (8 * (t / 16) + t % 8)))) :
    ∀ t, (compactStep w 8 b4).testBit t =
      (decide (t % 32 < 16) && v.testBit (2 * (16 * (t / 32) + t % 16))) := by
  intro t
  unfold compactStep
  rw [Nat.testBit_and, Nat.testBit_or, Nat.testBit_shiftRight, b4_testBit, hw t, hw (8 + t)]
  by_cases hm : t % 32 < 16
  · by_cases h64 : t < 64
    · by_cases ha : t % 32 < 8
      · have e1 : 2 * (8 * (t / 16) + t % 8) = 2 * (16 * (t / 32) + t % 16) := by omega
        have hc : t % 16 < 8 := by omega
        have hd : ¬((8 + t) % 16 < 8) := by omega
        simp [e1, hm, h64, hc, hd]
      · have hb : 8 ≤ t % 32 ∧ t % 32 < 16 := by omega
        have hc : ¬(t % 16 < 8) := by omega
        have hd : (8 + t) % 16 < 8 := by omega
        have e1 : 2 * (8 * ((8 + t) / 16) + (8 + t) % 8) = 2 * (16 * (t / 32) + t % 16) := by omega
        simp [e1, hm, h64, hc, hd]
        congr 1
        omega
    · have hj : 64 ≤ 2 * (16 * (t / 32) + t % 16) := by omega
      simp [hm, h64, testBit_ge hv hj]
  · simp [hm]

/-- Stage 16 (final) of the compact. -/
theorem compact_inv_16 (v w : Nat) (hv : v < 2^64)
    (hw : ∀ t, w.testBit t = (decide (t % 32 < 16) && v.testBit (2 * (16 * (t / 32) + t % 16)))) :
    ∀ t, (compactStep w 16 b5).testBit t =
      (decide (t < 32) && v.testBit (2 * t)) := by
  intro t
  unfold compactStep
  rw [Nat.testBit_and, Nat.testBit_or, Nat.testBit_shiftRight, b5_testBit, hw t, hw (16 + t)]
  by_cases hm : t < 32
  · by_cases ha : t % 32 < 16
    · have e1 : 2 * (16 * (t / 32) + t % 16) = 2 * t := by omega
      have hd : ¬((16 + t) % 32 < 16) := by omega
      simp [e1, hm, hd, ha]
    · have hc : ¬(t % 32 < 16) := ha
      have hd : (16 + t) % 32 < 16 := by omega
      have e1 : 2 * (16 * ((16 + t) / 32) + (16 + t) % 16) = 2 * t := by omega
      simp [e1, hm, hc, hd]
      congr 1
      omega
  · simp [hm]

/-- Bit `k` of the compact form: it collects bit `2k` of the input. -/
theorem compact_testBit (v k : Nat) (hv : v < 2^64) :
    (compact v).testBit k = (decide (k < 32) && v.testBit (2 * k)) := by
  have h : ∀ t, (compact v).testBit t = (decide (t < 32) && v.testBit (2 * t)) := by
    unfold compact
    exact compact_inv_16 v _ hv (compact_inv_8 v _ hv (compact_inv_4 v _ hv
      (compact_inv_2 v _ hv (compact_inv_1 v hv))))
  exact h k

/-- Bit `k` of the first (`x`) component of `deinterleave`. -/
theorem deinterleave_fst_testBit (z k : Nat) (hz : z < 2^64) :
    (deinterleave z).1.testBit k = (decide (k < 32) && z.testBit (2 * k)) := by
  unfold deinterleave
  simp only [Nat.testBit_mod_two_pow, compact_testBit z k hz]
  by_cases h : k < 32 <;> simp [h]

/-- Bit `k` of the second (`y`) component of `deinterleave`. -/
theorem deinterleave_snd_testBit (z k : Nat) (hz : z < 2^64) :
    (deinterleave z).2.testBit k = (decide (k < 32) && z.testBit (2 * k + 1)) := by
  unfold deinterleave
  have hz2 : z >>> 1 < 2^64 := by
    have h1 : z >>> 1 = z / 2^1 := Nat.shiftRight_eq_div_pow z 1
    omega
  simp only [Nat.testBit_mod_two_pow, compact_testBit (z >>> 1) k hz2, Nat.testBit_shiftRight]
  have e1 : 1 + 2 * k = 2 * k + 1 := by omega
  by_cases h : k < 32 <;> simp [h, e1]

/-- `interleave` is injective below `2^32` and `deinterleave` inverts it. -/
theorem deinterleave_interleave (x y : Nat) (hx : x < 2^32) (hy : y < 2^32) :
    deinterleave (interleave x y) = (x, y) := by
  have hz := interleave_lt x y
  rw [Prod.ext_iff]
  constructor
  · apply Nat.eq_of_testBit_eq
    intro k
    rw [deinterleave_fst_testBit _ k hz, interleave_testBit x y (2 * k) hx hy]
    have h2 : (2 * k) % 2 = 0 := by omega
    have h3 : 2 * k / 2 = k := by omega
    rcases Nat.lt_or_ge k 32 with h | h
    · simp [h2, h3, h]
    · simp [h2, h3, Nat.not_lt_of_le h, testBit_ge hx h]
  · apply Nat.eq_of_testBit_eq
    intro k
    rw [deinterleave_snd_testBit _ k hz, interleave_testBit x y (2 * k + 1) hx hy]
    have h2 : ¬((2 * k + 1) % 2 = 0) := by omega
    have h3 : (2 * k + 1) / 2 = k := by omega
    rcases Nat.lt_or_ge k 32 with h | h
    · simp [h2, h3, h]
    · simp [h2, h3, Nat.not_lt_of_le h, testBit_ge hy h]

/-- C1: For every pair of 32-bit unsigned integers `x` and `y`,
`deinterleave(interleave(x, y))` returns exactly `(x, y)`. -/
theorem C1_roundtrip (x y : Nat) (hx : x < 2^32) (hy : y < 2^32) :
    deinterleave (interleave x y) = (x, y) :=
  deinterleave_interleave x y hx hy

theorem C1_roundtrip_witness :
    0xDEADBEEF < 2^32 ∧ 0x12345678 < 2^32 ∧
      deinterleave (interleave 0xDEADBEEF 0x12345678) = (0xDEADBEEF, 0x12345678) :=
  ⟨by norm_num, by norm_num, C1_roundtrip 0xDEADBEEF 0x12345678 (by norm_num) (by norm_num)⟩

/-! ### The geohash value type and the adjacency engine (source lines 5-200)

The Go struct `fastGeoHash` caches up to three representations of one
value (hash, grid bits, float coordinates).  Claims about the adjacency
engine concern the grid-bit representation, so a value whose bits are
known (`bitsCalculated`) is modelled as `GridCell`; a hash-born value
(`hashCalculated`) as `HashGeoHash`; a coordinate-born value as
`CoordGeoHash`.  Conversions follow the lazy computation paths of the
source. -/

inductive Direction where
  | North
  | NorthEast
  | East
  | SouthEast
  | South
  | SouthWest
  | West
  | NorthWest
deriving DecidableEq, Repr

export Direction (North NorthEast East SouthEast South SouthWest West NorthWest)

/-- The grid-bit state of a `fastGeoHash`: `latBits`, `lonBits` (`uint32`)
and `precision` (`uint`). -/
structure GridCell where
  latBits : Nat
  lonBits : Nat
  precision : Nat
deriving DecidableEq, Repr

/-- Bit pattern of the Go expression `1 << s` at type `int` (64-bit):
zero once the shift count reaches the word size. -/
def goShl1 (s : Nat) : Nat := if s < 64 then 2^s else 0

/-- Wrapping 64-bit subtraction (Go `uint` arithmetic). -/
def sub64 (a b : Nat) : Nat := (a + (2^64 - b % 2^64)) % 2^64

/-- Wrapping 32-bit subtraction (Go `uint32` arithmetic). -/
def sub32 (a b : Nat) : Nat := (a + (2^32 - b % 2^32)) % 2^32

/-- Go `uint32(...)` conversion. -/
def u32 (n : Nat) : Nat := n % 2^32

/-- `lonPrecision := f.precision / 2` (source line 119). -/
def lonPrecisionOf (p : Nat) : Nat := p / 2

/-- `latPrecision`, decremented by one for odd precision (source lines
120-124).  The decrement is Go `uint` arithmetic, so `latPrecision`
wraps to `2^64 - 1` when `precision = 1`. -/
def latPrecisionOf (p : Nat) : Nat :=
  if p % 2 = 1 then sub64 (lonPrecisionOf p) 1 else lonPrecisionOf p

/-- `uint32(1 << (32 - latPrecision))`, the north/south step (source
lines 142, 155). -/
def latStepOf (p : Nat) : Nat := u32 (goShl1 (sub64 32 (latPrecisionOf p)))

/-- `uint32((1 << (32 - latPrecision)) - 1)`, the value subtracted in the
north-pole check (source line 137). -/
def northCheckOf (p : Nat) : Nat := u32 (sub64 (goShl1 (sub64 32 (latPrecisionOf p))) 1)

/-- `uint32(1 << (32 - lonPrecision))`, the east/west step (source
lines 167, 175). -/
def lonStepOf (p : Nat) : Nat := u32 (goShl1 (sub64 32 (lonPrecisionOf p)))

/-- `GetAdjacent` (source lines 107-187), on the grid-bit state.  The Go
code runs two `switch` statements (latitude first, with an early `nil`
return at the pole checks; then longitude); here the two switches are
expanded per direction, which computes the same result.  All `uint32`
arithmetic wraps. -/
def GetAdjacent (f : GridCell) (dir : Direction) : Option GridCell :=
  match dir with
  | North =>
      if sub32 f.latBits (northCheckOf f.precision) = 0 then none
      else some ⟨(f.latBits + latStepOf f.precision) % 2^32, f.lonBits, f.precision⟩
  | NorthEast =>
      if sub32 f.latBits (northCheckOf f.precision) = 0 then none
      else some ⟨(f.latBits + latStepOf f.precision) % 2^32,
        (f.lonBits + lonStepOf f.precision) % 2^32, f.precision⟩
  | NorthWest =>
      if sub32 f.latBits (northCheckOf f.precision) = 0 then none
      else some ⟨(f.latBits + latStepOf f.precision) % 2^32,
        sub32 f.lonBits (lonStepOf f.precision), f.precision⟩
  | South =>
      if f.latBits = 0 then none
      else some ⟨sub32 f.latBits (latStepOf f.precision), f.lonBits, f.precision⟩
  | SouthEast =>
      if f.latBits = 0 then none
      else some ⟨sub32 f.latBits (latStepOf f.precision),
        (f.lonBits + lonStepOf f.precision) % 2^32, f.precision⟩
  | SouthWest =>
      if f.latBits = 0 then none
      else some ⟨sub32 f.latBits (latStepOf f.precision),
        sub32 f.lonBits (lonStepOf f.precision), f.precision⟩
  | East =>
      some ⟨f.latBits, (f.lonBits + lonStepOf f.precision) % 2^32, f.precision⟩
  | West =>
      some ⟨f.latBits, sub32 f.lonBits (lonStepOf f.precision), f.precision⟩

/-- `GetNeighbors` (source lines 189-200): the eight adjacent cells, in
the fixed order N, NE, E, SE, S, SW, W, NW. -/
def GetNeighbors (f : GridCell) : List (Option GridCell) :=
  [GetAdjacent f North, GetAdjacent f NorthEast, GetAdjacent f East,
   GetAdjacent f SouthEast, GetAdjacent f South, GetAdjacent f SouthWest,
   GetAdjacent f West, GetAdjacent f NorthWest]

/-- `Hash()` (source lines 76-85) for a value whose grid bits are known:
`interleave(f.latBits, f.lonBits)`. -/
def cellHash (c : GridCell) : Nat := interleave c.latBits c.lonBits

/-- C2: the spec says a cell at the maximum-latitude grid position must
return "no cell" for North, NorthEast and NorthWest.  The code's
north-pole check compares `latBits` against `step - 1` (a bottom-row
coordinate) instead of the top row, so the top cell at precision 2
(latBits = 2^31, the maximal latitude grid position) silently wraps over
the pole to latBits = 0 rather than returning nil. -/
theorem C2_north_check_bug :
    GetAdjacent ⟨2^31, 0, 2⟩ North = some ⟨0, 0, 2⟩ ∧
    GetAdjacent ⟨2^31, 0, 2⟩ NorthEast = some ⟨0, 2^31, 2⟩ ∧
    GetAdjacent ⟨2^31, 0, 2⟩ NorthWest = some ⟨0, 2^31, 2⟩ ∧
    GetAdjacent ⟨0, 0, 2⟩ South = none ∧
    GetAdjacent ⟨0, 0, 2⟩ SouthEast = none ∧
    GetAdjacent ⟨0, 0, 2⟩ SouthWest = none := by
  decide

/-- East and West moves are handled only by the longitude switch, which
has no `nil` branch. -/
theorem getAdjacent_east_eq (c : GridCell) :
    GetAdjacent c East =
      some ⟨c.latBits, (c.lonBits + lonStepOf c.precision) % 2^32, c.precision⟩ := rfl

theorem getAdjacent_west_eq (c : GridCell) :
    GetAdjacent c West =
      some ⟨c.latBits, sub32 c.lonBits (lonStepOf c.precision), c.precision⟩ := rfl

/-- C8: for every cell (any grid position, any precision) `GetAdjacent`
East and West return a cell — the longitude switch has no `nil` branch —
and a cell at the maximum longitude grid position moving East wraps
cyclically modulo the grid width to the minimum longitude grid
position. -/
theorem C8_east_west_wrap (c : GridCell)
    (htop : c.lonBits = 2^32 - lonStepOf c.precision) :
    (∀ d : GridCell, (GetAdjacent d East).isSome = true ∧
        (GetAdjacent d West).isSome = true) ∧
    ∃ g, GetAdjacent c East = some g ∧ g.lonBits = 0 ∧ g.latBits = c.latBits ∧
      g.precision = c.precision := by
  refine ⟨fun d => ⟨by rw [getAdjacent_east_eq]; rfl,
    by rw [getAdjacent_west_eq]; rfl⟩, ?_⟩
  refine ⟨_, getAdjacent_east_eq c, ?_, rfl, rfl⟩
  show (c.lonBits + lonStepOf c.precision) % 2^32 = 0
  have hle : lonStepOf c.precision ≤ 2^32 := by
    have : lonStepOf c.precision < 2^32 := Nat.mod_lt _ (by norm_num)
    omega
  rw [htop]
  rw [Nat.sub_add_cancel hle]
  simp

theorem C8_east_west_wrap_witness :
    ((2^31 : Nat) = 2^32 - lonStepOf 2) ∧
    ((∀ d : GridCell, (GetAdjacent d East).isSome = true ∧
        (GetAdjacent d West).isSome = true) ∧
      ∃ g, GetAdjacent ⟨77, 2^31, 2⟩ East = some g ∧ g.lonBits = 0 ∧
        g.latBits = (⟨77, 2^31, 2⟩ : GridCell).latBits ∧
        g.precision = (⟨77, 2^31, 2⟩ : GridCell).precision) :=
  ⟨by decide, C8_east_west_wrap ⟨77, 2^31, 2⟩ (by decide)⟩

/-- C9: bit `2i` of `interleave(x, y)` is bit `i` of `x`, bit `2i+1` is
bit `i` of `y`; hence in the code produced by `Hash()` from
`(latBits, lonBits)`, bit 63 is the top bit of `lonBits` and bit 62 the
top bit of `latBits`. -/
theorem C9_bit_layout (x y i : Nat) (c : GridCell)
    (hx : x < 2^32) (hy : y < 2^32) (hi : i ≤ 31)
    (hlat : c.latBits < 2^32) (hlon : c.lonBits < 2^32) :
    ((interleave x y).testBit (2 * i) = x.testBit i ∧
      (interleave x y).testBit (2 * i + 1) = y.testBit i) ∧
    ((cellHash c).testBit 63 = c.lonBits.testBit 31 ∧
      (cellHash c).testBit 62 = c.latBits.testBit 31) := by
  have key : ∀ a b j, a < 2^32 → b < 2^32 →
      (interleave a b).testBit (2 * j) = a.testBit j ∧
      (interleave a b).testBit (2 * j + 1) = b.testBit j := by
    intro a b j ha hb
    constructor
    · rw [interleave_testBit a b (2 * j) ha hb]
      have h2 : (2 * j) % 2 = 0 := by omega
      have h3 : 2 * j / 2 = j := by omega
      simp [h2, h3]
    · rw [interleave_testBit a b (2 * j + 1) ha hb]
      have h2 : ¬((2 * j + 1) % 2 = 0) := by omega
      have h3 : (2 * j + 1) / 2 = j := by omega
      simp [h2, h3]
  refine ⟨key x y i hx hy, ?_, ?_⟩
  · have h := (key c.latBits c.lonBits 31 hlat hlon).2
    simpa using h
  · have h := (key c.latBits c.lonBits 31 hlat hlon).1
    simpa using h

theorem C9_bit_layout_witness :
    ((0x80000001 : Nat) < 2^32 ∧ (0xC0000000 : Nat) < 2^32 ∧ (31:Nat) ≤ 31 ∧
      (2^31 : Nat) < 2^32 ∧ (5 : Nat) < 2^32) ∧
    (((interleave 0x80000001 0xC0000000).testBit (2 * 31) = (0x80000001 : Nat).testBit 31 ∧
      (interleave 0x80000001 0xC0000000).testBit (2 * 31 + 1) = (0xC0000000 : Nat).testBit 31) ∧
     ((cellHash ⟨2^31, 5, 64⟩).testBit 63 = (5 : Nat).testBit 31 ∧
      (cellHash ⟨2^31, 5, 64⟩).testBit 62 = (2^31 : Nat).testBit 31)) :=
  ⟨⟨by norm_num, by norm_num, by norm_num, by norm_num, by norm_num⟩,
    C9_bit_layout 0x80000001 0xC0000000 31 ⟨2^31, 5, 64⟩
      (by norm_num) (by norm_num) (by norm_num) (by norm_num) (by norm_num)⟩

/-- C10: whenever `GetAdjacent` returns a cell, the new cell keeps the
receiver's precision; pure East/West moves leave the latitude grid
coordinate unchanged and pure North/South moves leave the longitude grid
coordinate unchanged. -/
theorem C10_adjacent_frame (c : GridCell) (dir : Direction) (g : GridCell)
    (h : GetAdjacent c dir = some g) :
    g.precision = c.precision ∧
    ((dir = East ∨ dir = West) → g.latBits = c.latBits) ∧
    ((dir = North ∨ dir = South) → g.lonBits = c.lonBits) := by
  cases dir with
  | North =>
      rw [show GetAdjacent c North =
        (if sub32 c.latBits (northCheckOf c.precision) = 0 then none
          else some ⟨(c.latBits + latStepOf c.precision) % 2^32,
            c.lonBits, c.precision⟩) from rfl] at h
      by_cases hc : sub32 c.latBits (northCheckOf c.precision) = 0
      · rw [if_pos hc] at h; exact absurd h (by simp)
      · rw [if_neg hc] at h
        injection h with h
        subst h
        exact ⟨rfl, by simp, by simp⟩
  | South =>
      rw [show GetAdjacent c South =
        (if c.latBits = 0 then none
          else some ⟨sub32 c.latBits (latStepOf c.precision),
            c.lonBits, c.precision⟩) from rfl] at h
      by_cases hc : c.latBits = 0
      · rw [if_pos hc] at h; exact absurd h (by simp)
      · rw [if_neg hc] at h
        injection h with h
        subst h
        exact ⟨rfl, by simp, by simp⟩
  | East =>
      rw [getAdjacent_east_eq] at h
      injection h with h
      subst h
      exact ⟨rfl, by simp, by simp⟩
  | West =>
      rw [getAdjacent_west_eq] at h
      injection h with h
      subst h
      exact ⟨rfl, by simp, by simp⟩
  | NorthEast =>
      rw [show GetAdjacent c NorthEast =
        (if sub32 c.latBits (northCheckOf c.precision) = 0 then none
          else some ⟨(c.latBits + latStepOf c.precision) % 2^32,
            (c.lonBits + lonStepOf c.precision) % 2^32, c.precision⟩) from rfl] at h
      by_cases hc : sub32 c.latBits (northCheckOf c.precision) = 0
      · rw [if_pos hc] at h; exact absurd h (by simp)
      · rw [if_neg hc] at h
        injection h with h
        subst h
        exact ⟨rfl, by simp, by simp⟩
  | NorthWest =>
      rw [show GetAdjacent c NorthWest =
        (if sub32 c.latBits (northCheckOf c.precision) = 0 then none
          else some ⟨(c.latBits + latStepOf c.precision) % 2^32,
            sub32 c.lonBits (lonStepOf c.precision), c.precision⟩) from rfl] at h
      by_cases hc : sub32 c.latBits (northCheckOf c.precision) = 0
      · rw [if_pos hc] at h; exact absurd h (by simp)
      · rw [if_neg hc] at h
        injection h with h
        subst h
        exact ⟨rfl, by simp, by simp⟩
  | SouthEast =>
      rw [show GetAdjacent c SouthEast =
        (if c.latBits = 0 then none
          else some ⟨sub32 c.latBits (latStepOf c.precision),
            (c.lonBits + lonStepOf c.precision) % 2^32, c.precision⟩) from rfl] at h
      by_cases hc : c.latBits = 0
      · rw [if_pos hc] at h; exact absurd h (by simp)
      · rw [if_neg hc] at h
        injection h with h
        subst h
        exact ⟨rfl, by simp, by simp⟩
  | SouthWest =>
      rw [show GetAdjacent c SouthWest =
        (if c.latBits = 0 then none
          else some ⟨sub32 c.latBits (latStepOf c.precision),
            sub32 c.lonBits (lonStepOf c.precision), c.precision⟩) from rfl] at h
      by_cases hc : c.latBits = 0
      · rw [if_pos hc] at h; exact absurd h (by simp)
      · rw [if_neg hc] at h
        injection h with h
        subst h
        exact ⟨rfl, by simp, by simp⟩

theorem C10_adjacent_frame_witness :
    GetAdjacent ⟨5, 5, 64⟩ East = some ⟨5, 6, 64⟩ ∧
    ((⟨5, 6, 64⟩ : GridCell).precision = (⟨5, 5, 64⟩ : GridCell).precision ∧
      ((East = East ∨ East = West) →
        (⟨5, 6, 64⟩ : GridCell).latBits = (⟨5, 5, 64⟩ : GridCell).latBits) ∧
      ((East = North ∨ East = South) →
        (⟨5, 6, 64⟩ : GridCell).lonBits = (⟨5, 5, 64⟩ : GridCell).lonBits)) :=
  ⟨by decide, C10_adjacent_frame ⟨5, 5, 64⟩ East ⟨5, 6, 64⟩ (by decide)⟩

/-! ### FromHash / GetInPrecision / Precision (source lines 64-105) -/

/-- The Go mask `^uint64((1 << (64 - precision)) - 1)` of `FromHash`
(source line 65): `64 - precision` is Go `uint` arithmetic, the shift is
at type `int`, the `- 1` wraps, and `^` is complement within 64 bits.
There is no validity check on `precision` and no error path. -/
def hashMask (p : Nat) : Nat :=
  (2^64 - 1) ^^^ (sub64 (goShl1 (sub64 64 p)) 1)

/-- The hash-born state of `fastGeoHash`: an eagerly masked `hash` and a
`precision` (`FromHash`, source lines 64-74). -/
structure HashGeoHash where
  hash : Nat
  precision : Nat
deriving DecidableEq, Repr

/-- `FromHash` (source lines 64-74): stores `hash & mask` and the given
precision.  Total: every precision is accepted. -/
def FromHash (hash p : Nat) : HashGeoHash := ⟨hash &&& hashMask p, p⟩

/-- `Precision()` (source lines 98-100). -/
def HashGeoHash.Precision (f : HashGeoHash) : Nat := f.precision

/-- `GetInPrecision` (source lines 102-105): `FromHash(f.Hash(), precision)`.
For a hash-born value `Hash()` returns the stored hash (source lines
76-85, `hashCalculated` is true). -/
def HashGeoHash.GetInPrecision (f : HashGeoHash) (p : Nat) : HashGeoHash :=
  FromHash f.hash p

theorem hashMask_testBit (p k : Nat) (hp1 : 1 ≤ p) (hp2 : p ≤ 64) :
    (hashMask p).testBit k = (decide (64 - p ≤ k) && decide (k < 64)) := by
  unfold hashMask goShl1 sub64
  have hpm : p % 2^64 = p := Nat.mod_eq_of_lt (by omega)
  have e1 : (64 + (2^64 - p % 2^64)) % 2^64 = 64 - p := by
    rw [hpm]; omega
  rw [e1]
  have h2 : 64 - p < 64 := by omega
  rw [if_pos h2]
  have hp3 : 2^(64-p) ≤ 2^64 := Nat.pow_le_pow_right (by norm_num) (by omega)
  have hp4 : 1 ≤ 2^(64-p) := Nat.one_le_two_pow
  have e2 : (2^(64-p) + (2^64 - 1 % 2^64)) % 2^64 = 2^(64-p) - 1 := by omega
  rw [e2]
  rw [Nat.testBit_xor, Nat.testBit_two_pow_sub_one, Nat.testBit_two_pow_sub_one]
  by_cases h3 : k < 64 <;> by_cases h4 : k < 64 - p <;> simp [h3, h4] <;> omega

/-- For a valid precision, the Go mask is the closed-form top-bits mask. -/
theorem hashMask_value (p : Nat) (hp1 : 1 ≤ p) (hp2 : p ≤ 64) :
    hashMask p = 2^64 - 2^(64 - p) := by
  apply Nat.eq_of_testBit_eq
  intro k
  rw [hashMask_testBit p k hp1 hp2]
  have e1 : (2:Nat)^64 - 2^(64 - p) = 2^(64-p) * (2^p - 1) := by
    have h3 : (2:Nat)^(64-p) * 2^p = 2^64 := by
      rw [← pow_add]
      congr 1
      omega
    rw [show (2:Nat)^p - 1 = Nat.pred (2^p) from rfl, Nat.mul_pred, h3]
  rw [e1, Nat.testBit_mul_pow_two]
  by_cases h3 : 64 - p ≤ k
  · simp [h3]
    omega
  · simp [h3]

/-- Outside [1,64] (but inside Go's `uint` range) the computed mask is 0. -/
theorem hashMask_out_of_range (p : Nat) (hp64 : p < 2^64) (hp : p = 0 ∨ 64 < p) :
    hashMask p = 0 := by
  unfold hashMask goShl1 sub64
  have hpm : p % 2^64 = p := Nat.mod_eq_of_lt (by omega)
  have e1 : (64 + (2^64 - p % 2^64)) % 2^64 = if p = 0 then 64 else 2^64 - (p - 64) := by
    rw [hpm]
    rcases hp with h | h
    · subst h; norm_num
    · rw [if_neg (by omega)]; omega
  rw [e1]
  have h2 : ¬((if p = 0 then 64 else 2^64 - (p - 64)) < 64) := by
    rcases hp with h | h
    · simp [h]
    · rw [if_neg (by omega)]; omega
  rw [if_neg h2]
  norm_num

/-- C5: truncation is idempotent: `FromHash` stores the hash with the low
`64 - p` bits cleared, and `GetInPrecision p` applied twice equals one
application (same code and precision). -/
theorem C5_truncation_idempotent (h p k : Nat) (hh : h < 2^64)
    (hp1 : 1 ≤ p) (hp2 : p ≤ 64) :
    (FromHash h p).hash.testBit k = (h.testBit k && decide (64 - p ≤ k)) ∧
    ((FromHash h p).GetInPrecision p).GetInPrecision p
      = (FromHash h p).GetInPrecision p := by
  constructor
  · show (h &&& hashMask p).testBit k = _
    rw [Nat.testBit_and, hashMask_testBit p k hp1 hp2]
    rcases Nat.lt_or_ge k 64 with h64 | h64
    · simp [h64]
    · simp [Nat.not_lt_of_le h64, testBit_ge hh h64]
  · show (⟨h &&& hashMask p &&& hashMask p &&& hashMask p, p⟩ : HashGeoHash)
      = ⟨h &&& hashMask p &&& hashMask p, p⟩
    have e1 : h &&& hashMask p &&& hashMask p &&& hashMask p
        = h &&& hashMask p &&& hashMask p := by
      apply Nat.eq_of_testBit_eq
      intro k2
      simp only [Nat.testBit_and]
      cases h.testBit k2 <;> cases (hashMask p).testBit k2 <;> rfl
    rw [e1]

theorem C5_truncation_idempotent_witness :
    ((0x123456789ABCDEF0 : Nat) < 2^64 ∧ 1 ≤ (10:Nat) ∧ (10:Nat) ≤ 64) ∧
    ((FromHash 0x123456789ABCDEF0 10).hash.testBit 3
        = ((0x123456789ABCDEF0 : Nat).testBit 3 && decide (64 - 10 ≤ 3)) ∧
      ((FromHash 0x123456789ABCDEF0 10).GetInPrecision 10).GetInPrecision 10
        = (FromHash 0x123456789ABCDEF0 10).GetInPrecision 10) :=
  ⟨⟨by norm_num, by norm_num, by norm_num⟩,
    C5_truncation_idempotent 0x123456789ABCDEF0 10 3 (by norm_num) (by norm_num) (by norm_num)⟩

/-- C6 counterexample: the claim says precisions outside [1,64] fail with
a domain error, but `FromHash` has no error path at all: at precision 0
and at precision 65 it returns an ordinary value (with mask 0, hence
code 0). -/
theorem C6_no_domain_error_counterexample :
    FromHash 0xABCD 0 = ⟨0, 0⟩ ∧ FromHash 0xABCD 65 = ⟨0, 65⟩ ∧
    (FromHash 0xABCD 0).Precision = 0 := by
  decide

/-- C6 amended: `FromHash` / `GetInPrecision` never fail; for `p` in
[1,64] the result carries precision `p` and the hash masked to its top
`p` bits, and for `p` outside [1,64] the computed mask is 0, so the
result is code 0 with that precision. -/
theorem C6_amended (h p : Nat) (hp64 : p < 2^64) :
    (FromHash h p).Precision = p ∧
    (1 ≤ p → p ≤ 64 → (FromHash h p).hash = h &&& (2^64 - 2^(64 - p))) ∧
    ((p = 0 ∨ 64 < p) → (FromHash h p).hash = 0) := by
  refine ⟨rfl, ?_, ?_⟩
  · intro hp1 hp2
    show h &&& hashMask p = _
    rw [hashMask_value p hp1 hp2]
  · intro hp
    show h &&& hashMask p = 0
    rw [hashMask_out_of_range p hp64 hp]
    exact Nat.and_zero h

theorem C6_amended_witness :
    ((7:Nat) < 2^64) ∧
    ((FromHash 0xFFFF 7).Precision = 7 ∧
      (1 ≤ (7:Nat) → (7:Nat) ≤ 64 → (FromHash 0xFFFF 7).hash = 0xFFFF &&& (2^64 - 2^(64 - 7))) ∧
      (((7:Nat) = 0 ∨ 64 < (7:Nat)) → (FromHash 0xFFFF 7).hash = 0)) :=
  ⟨by norm_num, C6_amended 0xFFFF 7 (by norm_num)⟩

/-! ### FromCoordinates / Precision (source lines 52-62, 98-100) -/

/-- The coordinate-born state of `fastGeoHash` (`FromCoordinates`, source
lines 52-62).  The float fields are modelled as rationals; no claim
settled here depends on float arithmetic.  The Go composite literal sets
only `lat`, `lon` and the boolean flags, so the `precision` field keeps
its zero value. -/
structure CoordGeoHash where
  lat : ℚ
  lon : ℚ
  precision : Nat
deriving DecidableEq, Repr

/-- `FromCoordinates` (source lines 52-62): `precision` is left at Go's
zero value. -/
def FromCoordinates (latitude longitude : ℚ) : CoordGeoHash :=
  ⟨latitude, longitude, 0⟩

/-- `Precision()` (source lines 98-100) for a coordinate-born value. -/
def CoordGeoHash.Precision (f : CoordGeoHash) : Nat := f.precision

/-- C7: the claim (and the interface comment `// 1..64`) says values born
from coordinates have full 64-bit precision; the code never sets the
`precision` field in `FromCoordinates`, so `Precision()` returns 0 for
every coordinate pair, not 64. -/
theorem C7_precision_zero (lat lon : ℚ) :
    (FromCoordinates lat lon).Precision = 0 ∧ (FromCoordinates lat lon).Precision ≠ 64 := by
  have h : (FromCoordinates lat lon).Precision = 0 := rfl
  exact ⟨h, by omega⟩

/-! ### GetHashRangesInside (source lines 202-259) -/

/-- `Range` (source lines 18-21). -/
structure Range where
  Min : Nat
  Max : Nat
deriving DecidableEq, Repr

/-- Index of the first element of `rs` satisfying `pred`, scanning front
to back as the Go `for ... range` loops do. -/
def firstIdx (pred : Range → Bool) : List Range → Option Nat
  | [] => none
  | r :: rest => if pred r then some 0 else (firstIdx pred rest).map (· + 1)

/-- Go slice removal by swapping with the last element:
`ranges[j] = ranges[len(ranges)-1]; ranges = ranges[:len(ranges)-1]`
(source lines 232-233, 245-246). -/
def swapRemove (rs : List Range) (j : Nat) : List Range :=
  (rs.set j (rs.getLastD ⟨0, 0⟩)).dropLast

/-- `r.Max+1 == q.Min` — the new range extends `q` on the left ("new
range before i", source line 225). -/
def contigLeft (r q : Range) : Bool := r.Max + 1 == q.Min

/-- `q.Max+1 == r.Min` — the new range extends `q` on the right ("new
range after i", source line 238). -/
def contigRight (r q : Range) : Bool := q.Max + 1 == r.Min

/-- One iteration of the merging loop of `GetHashRangesInside` (source
lines 223-255): scan for the first range contiguous with `r` on either
side, extend it, absorb at most one later range that becomes contiguous
(removing it by swap-with-last), and append `r` as a new range when
nothing is contiguous. -/
def insertRange (rs : List Range) (r : Range) : List Range :=
  match firstIdx (fun q => contigLeft r q || contigRight r q) rs with
  | none => rs ++ [r]
  | some i =>
      let q := rs.getD i ⟨0, 0⟩
      if contigLeft r q then
        match (firstIdx (fun q2 => contigRight r q2) (rs.drop (i + 1))).map (· + (i + 1)) with
        | none => rs.set i ⟨r.Min, q.Max⟩
        | some j => swapRemove (rs.set i ⟨(rs.getD j ⟨0, 0⟩).Min, q.Max⟩) j
      else
        match (firstIdx (fun q2 => contigLeft r q2) (rs.drop (i + 1))).map (· + (i + 1)) with
        | none => rs.set i ⟨q.Min, r.Max⟩
        | some j => swapRemove (rs.set i ⟨q.Min, (rs.getD j ⟨0, 0⟩).Max⟩) j

/-- The neighbor loop of `GetHashRangesInside` (source lines 217-256):
each neighbor's range is inserted in turn; a `nil` neighbor is
dereferenced by `n.Hash()` (source line 218), modelled as `none`. -/
def rangesLoop (minm maxm : Nat) : List (Option GridCell) → List Range → Option (List Range)
  | [], acc => some acc
  | none :: _, _ => none
  | some nc :: rest, acc =>
      rangesLoop minm maxm rest (insertRange acc ⟨cellHash nc &&& minm, cellHash nc ||| maxm⟩)

/-- `max := uint64(math.MaxUint64 >> bestPrecision)` (source line 211). -/
def maxMask (p : Nat) : Nat := (2^64 - 1) >>> p

/-- `min := ^uint64(math.MaxUint64 >> bestPrecision)` (source line 210). -/
def minMask (p : Nat) : Nat := (2^64 - 1) ^^^ maxMask p

/-- The grid-bit state of `h := f.GetInPrecision(bestPrecision)` used by
`GetHashRangesInside` (source lines 206-207): grid bits are obtained by
deinterleaving the truncated hash, as in `GetAdjacent`'s lazy path
(source lines 110-117). -/
def truncCell (f : HashGeoHash) (p : Nat) : GridCell :=
  ⟨(deinterleave (f.GetInPrecision p).hash).1,
    (deinterleave (f.GetInPrecision p).hash).2, p⟩

/-- The full-width range of one cell (source lines 212-222):
`{hash & min, hash | max}`. -/
def rangeOfCell (minm maxm : Nat) (nc : GridCell) : Range :=
  ⟨cellHash nc &&& minm, cellHash nc ||| maxm⟩

/-- `GetHashRangesInside` (source lines 202-259), with the selected
precision passed as a parameter: `getProximitySearchPrecision` (source
lines 297-334) derives it from the latitude and the radius in `float64`
arithmetic, which this integer embedding does not model; it returns some
Go `uint`, and the theorems below quantify over every possible value, so
every radius is covered.  `none` models the Go panic when a `nil`
neighbor is dereferenced. -/
def GetHashRangesInsideAt (f : HashGeoHash) (bestPrecision : Nat) : Option (List Range) :=
  rangesLoop (minMask bestPrecision) (maxMask bestPrecision)
    (GetNeighbors (truncCell f bestPrecision))
    [⟨(f.GetInPrecision bestPrecision).hash &&& minMask bestPrecision,
      (f.GetInPrecision bestPrecision).hash ||| maxMask bestPrecision⟩]

theorem rangesLoop_of_none_mem (minm maxm : Nat) :
    ∀ (l : List (Option GridCell)) (acc : List Range),
      none ∈ l → rangesLoop minm maxm l acc = none := by
  intro l
  induction l with
  | nil => intro acc h; cases h
  | cons a rest ih =>
      intro acc h
      cases a with
      | none => rfl
      | some nc =>
          have h2 : none ∈ rest := by
            rcases List.mem_cons.mp h with h3 | h3
            · exact absurd h3 (by simp)
            · exact h3
          exact ih _ h2

/-- C3 (code bug): the spec requires `GetHashRangesInside` to skip
absent ("no cell") neighbors, but the Go loop calls `n.Hash()` on every
entry with no `nil` check.  For the value `FromHash(0, 64)` — whose cell
touches the south pole at every precision — the SouthEast neighbor is
`nil` for every possible selected precision, so the call panics instead
of returning normally, for every radius. -/
theorem C3_nil_neighbor_panic (p : Nat) :
    GetHashRangesInsideAt (FromHash 0 64) p = none := by
  have h0 : ((FromHash 0 64).GetInPrecision p).hash = 0 := by
    show ((0 &&& hashMask 64) &&& hashMask p) = 0
    rw [Nat.zero_and, Nat.zero_and]
  have hD : deinterleave 0 = (0, 0) := by decide
  have hSE : GetAdjacent ⟨0, 0, p⟩ SouthEast = none := rfl
  have hmem : none ∈ GetNeighbors ⟨0, 0, p⟩ := by
    unfold GetNeighbors
    rw [hSE]
    simp
  have hcell : truncCell (FromHash 0 64) p = ⟨0, 0, p⟩ := by
    unfold truncCell
    rw [h0, hD]
  simp only [GetHashRangesInsideAt, hcell]
  exact rangesLoop_of_none_mem _ _ _ _ hmem

/-! ### Correctness of the range merge -/

/-- `x` lies in the inclusive range `r`. -/
def inR (r : Range) (x : Nat) : Prop := r.Min ≤ x ∧ x ≤ r.Max

/-- `x` is covered by some range of `rs`. -/
def covered (rs : List Range) (x : Nat) : Prop := ∃ r ∈ rs, inR r x

/-- Two ranges neither overlap nor touch (a gap of at least one value). -/
def separated (a b : Range) : Prop := a.Max + 2 ≤ b.Min ∨ b.Max + 2 ≤ a.Min

/-- A well-formed working set: nonempty ranges, pairwise separated. -/
def GoodList (rs : List Range) : Prop :=
  (∀ r ∈ rs, r.Min ≤ r.Max) ∧ rs.Pairwise separated

theorem separated_symm {a b : Range} (h : separated a b) : separated b a := h.symm

theorem firstIdx_none {pred : Range → Bool} :
    ∀ {l : List Range}, firstIdx pred l = none → ∀ q ∈ l, pred q = false := by
  intro l
  induction l with
  | nil => intro _ q hq; cases hq
  | cons a t ih =>
      intro h q hq
      unfold firstIdx at h
      by_cases hp : pred a
      · rw [if_pos hp] at h; cases h
      · rw [if_neg hp] at h
        rcases List.mem_cons.mp hq with rfl | hq2
        · exact Bool.of_not_eq_true hp
        · exact ih (by
            rcases h2 : firstIdx pred t with _ | v
            · rfl
            · rw [h2] at h; simp at h) q hq2

theorem firstIdx_some_decomp {pred : Range → Bool} :
    ∀ {l : List Range} {i : Nat}, firstIdx pred l = some i →
      ∃ l1 q l2, l = l1 ++ q :: l2 ∧ l1.length = i ∧ pred q = true ∧
        (∀ e ∈ l1, pred e = false) := by
  intro l
  induction l with
  | nil => intro i h; cases h
  | cons a t ih =>
      intro i h
      unfold firstIdx at h
      by_cases hp : pred a
      · rw [if_pos hp] at h
        cases h
        exact ⟨[], a, t, rfl, rfl, hp, by intro e he; cases he⟩
      · rw [if_neg hp] at h
        rcases h2 : firstIdx pred t with _ | i'
        · rw [h2] at h; cases h
        · rw [h2] at h
          rw [show (some i').map (· + 1) = some (i' + 1) from rfl] at h
          cases h
          obtain ⟨l1, q, l2, hdec, hlen, hq, hpre⟩ := ih h2
          refine ⟨a :: l1, q, l2, by rw [hdec]; rfl, ?_, hq, ?_⟩
          · rw [List.length_cons, hlen]
          · intro e he
            rcases List.mem_cons.mp he with rfl | he2
            · exact Bool.of_not_eq_true hp
            · exact hpre e he2

theorem set_decomp (l1 l2 : List Range) (q v : Range) :
    (l1 ++ q :: l2).set l1.length v = l1 ++ v :: l2 := by
  induction l1 with
  | nil => rfl
  | cons a t ih => simp [List.set, ih]

theorem drop_decomp (l1 l2 : List Range) (q : Range) :
    (l1 ++ q :: l2).drop (l1.length + 1) = l2 := by
  induction l1 with
  | nil => rfl
  | cons a t ih => simpa using ih

theorem getD_decomp (l1 l2 : List Range) (q d : Range) :
    (l1 ++ q :: l2).getD l1.length d = q := by
  induction l1 with
  | nil => rfl
  | cons a t ih => simpa using ih

theorem eraseIdx_decomp (l1 l2 : List Range) (q : Range) :
    (l1 ++ q :: l2).eraseIdx l1.length = l1 ++ l2 := by
  induction l1 with
  | nil => rfl
  | cons a t ih => simp [List.eraseIdx, ih]

theorem swapRemove_decomp_perm (l1 l2 : List Range) (q : Range) :
    List.Perm (swapRemove (l1 ++ q :: l2) l1.length) (l1 ++ l2) := by
  rcases List.eq_nil_or_concat l2 with rfl | ⟨l2t, a, rfl⟩
  · unfold swapRemove
    have h1 : (l1 ++ [q]).getLastD ⟨0, 0⟩ = q := List.getLastD_concat _ _ _
    rw [h1, set_decomp, List.dropLast_concat]
    simp
  · unfold swapRemove
    simp only [List.concat_eq_append]
    have h1 : (l1 ++ q :: (l2t ++ [a])).getLastD ⟨0, 0⟩ = a := by
      rw [show l1 ++ q :: (l2t ++ [a]) = (l1 ++ q :: l2t) ++ [a] by simp]
      exact List.getLastD_concat _ _ _
    rw [h1, set_decomp]
    rw [show l1 ++ a :: (l2t ++ [a]) = (l1 ++ a :: l2t) ++ [a] by simp,
      List.dropLast_concat]
    have h2 : List.Perm (a :: l2t) (l2t ++ [a]) := by
      have h3 := @List.perm_middle Range a l2t []
      simpa using h3.symm
    exact List.Perm.append_left l1 h2

theorem covered_perm {rs rs' : List Range} (h : List.Perm rs rs') (x : Nat) :
    covered rs x ↔ covered rs' x := by
  unfold covered
  constructor
  · rintro ⟨r, hr, hx⟩; exact ⟨r, h.mem_iff.mp hr, hx⟩
  · rintro ⟨r, hr, hx⟩; exact ⟨r, h.mem_iff.mpr hr, hx⟩

theorem goodList_perm {rs rs' : List Range} (h : List.Perm rs rs') :
    GoodList rs → GoodList rs' := by
  rintro ⟨h1, h2⟩
  refine ⟨fun r hr => h1 r (h.mem_iff.mpr hr), ?_⟩
  exact (List.Perm.pairwise_iff (fun h3 => separated_symm h3) h).mp h2

theorem covered_append (l1 l2 : List Range) (x : Nat) :
    covered (l1 ++ l2) x ↔ covered l1 x ∨ covered l2 x := by
  unfold covered
  constructor
  · rintro ⟨r, hr, hx⟩
    rcases List.mem_append.mp hr with h | h
    · exact Or.inl ⟨r, h, hx⟩
    · exact Or.inr ⟨r, h, hx⟩
  · rintro (⟨r, hr, hx⟩ | ⟨r, hr, hx⟩)
    · exact ⟨r, List.mem_append.mpr (Or.inl hr), hx⟩
    · exact ⟨r, List.mem_append.mpr (Or.inr hr), hx⟩

theorem covered_cons (a : Range) (l : List Range) (x : Nat) :
    covered (a :: l) x ↔ inR a x ∨ covered l x := by
  unfold covered
  constructor
  · rintro ⟨r, hr, hx⟩
    rcases List.mem_cons.mp hr with rfl | h
    · exact Or.inl hx
    · exact Or.inr ⟨r, h, hx⟩
  · rintro (hx | ⟨r, hr, hx⟩)
    · exact ⟨a, List.mem_cons_self a l, hx⟩
    · exact ⟨r, List.mem_cons_of_mem a hr, hx⟩

theorem contigLeft_iff (r q : Range) : contigLeft r q = true ↔ r.Max + 1 = q.Min := by
  unfold contigLeft
  simp

theorem contigRight_iff (r q : Range) : contigRight r q = true ↔ q.Max + 1 = r.Min := by
  unfold contigRight
  simp

theorem insertRange_eq_append (rs : List Range) (r : Range)
    (h : firstIdx (fun q => contigLeft r q || contigRight r q) rs = none) :
    insertRange rs r = rs ++ [r] := by
  unfold insertRange
  rw [h]

theorem insertRange_eq_left_simple (l1 l2 : List Range) (q r : Range)
    (h : firstIdx (fun q3 => contigLeft r q3 || contigRight r q3) (l1 ++ q :: l2)
      = some l1.length)
    (hL : contigLeft r q = true)
    (h2 : firstIdx (fun q2 => contigRight r q2) l2 = none) :
    insertRange (l1 ++ q :: l2) r = l1 ++ (⟨r.Min, q.Max⟩ : Range) :: l2 := by
  unfold insertRange
  rw [h]
  simp only [getD_decomp, drop_decomp, hL, eq_self_iff_true, if_true, h2, Option.map_none']
  exact set_decomp l1 l2 q _

theorem insertRange_eq_left_absorb (l1 l21 l22 : List Range) (q q2 r : Range)
    (h : firstIdx (fun q3 => contigLeft r q3 || contigRight r q3)
      (l1 ++ q :: (l21 ++ q2 :: l22)) = some l1.length)
    (hL : contigLeft r q = true)
    (h2 : firstIdx (fun q3 => contigRight r q3) (l21 ++ q2 :: l22) = some l21.length) :
    List.Perm (insertRange (l1 ++ q :: (l21 ++ q2 :: l22)) r)
      (l1 ++ (⟨q2.Min, q.Max⟩ : Range) :: (l21 ++ l22)) := by
  unfold insertRange
  rw [h]
  simp only [getD_decomp, drop_decomp, hL, eq_self_iff_true, if_true, h2, Option.map_some']
  have e1 : ∀ v : Range, (l1 ++ q :: (l21 ++ q2 :: l22)).getD (l21.length + (l1.length + 1)) v
      = q2 := by
    intro v
    have e2 : l1 ++ q :: (l21 ++ q2 :: l22) = (l1 ++ q :: l21) ++ q2 :: l22 := by simp
    have e3 : (l1 ++ q :: l21).length = l21.length + (l1.length + 1) := by
      simp
      omega
    rw [e2, ← e3, getD_decomp]
  rw [e1]
  have e4 : (l1 ++ q :: (l21 ++ q2 :: l22)).set l1.length ⟨q2.Min, q.Max⟩
      = (l1 ++ (⟨q2.Min, q.Max⟩ : Range) :: l21) ++ q2 :: l22 := by
    rw [set_decomp]
    simp
  rw [e4]
  have e5 : l21.length + (l1.length + 1) = (l1 ++ (⟨q2.Min, q.Max⟩ : Range) :: l21).length := by
    simp
    omega
  rw [e5]
  have h7 : (l1 ++ (⟨q2.Min, q.Max⟩ : Range) :: l21) ++ l22
      = l1 ++ (⟨q2.Min, q.Max⟩ : Range) :: (l21 ++ l22) := by simp
  rw [← h7]
  exact swapRemove_decomp_perm (l1 ++ (⟨q2.Min, q.Max⟩ : Range) :: l21) l22 q2

theorem insertRange_eq_right_simple (l1 l2 : List Range) (q r : Range)
    (h : firstIdx (fun q3 => contigLeft r q3 || contigRight r q3) (l1 ++ q :: l2)
      = some l1.length)
    (hL : contigLeft r q = false)
    (h2 : firstIdx (fun q2 => contigLeft r q2) l2 = none) :
    insertRange (l1 ++ q :: l2) r = l1 ++ (⟨q.Min, r.Max⟩ : Range) :: l2 := by
  unfold insertRange
  rw [h]
  simp only [getD_decomp, drop_decomp, hL, Bool.false_eq_true, if_false, h2, Option.map_none']
  exact set_decomp l1 l2 q _

theorem insertRange_eq_right_absorb (l1 l21 l22 : List Range) (q q2 r : Range)
    (h : firstIdx (fun q3 => contigLeft r q3 || contigRight r q3)
      (l1 ++ q :: (l21 ++ q2 :: l22)) = some l1.length)
    (hL : contigLeft r q = false)
    (h2 : firstIdx (fun q3 => contigLeft r q3) (l21 ++ q2 :: l22) = some l21.length) :
    List.Perm (insertRange (l1 ++ q :: (l21 ++ q2 :: l22)) r)
      (l1 ++ (⟨q.Min, q2.Max⟩ : Range) :: (l21 ++ l22)) := by
  unfold insertRange
  rw [h]
  simp only [getD_decomp, drop_decomp, hL, Bool.false_eq_true, if_false, h2, Option.map_some']
  have e1 : ∀ v : Range, (l1 ++ q :: (l21 ++ q2 :: l22)).getD (l21.length + (l1.length + 1)) v
      = q2 := by
    intro v
    have e2 : l1 ++ q :: (l21 ++ q2 :: l22) = (l1 ++ q :: l21) ++ q2 :: l22 := by simp
    have e3 : (l1 ++ q :: l21).length = l21.length + (l1.length + 1) := by
      simp
      omega
    rw [e2, ← e3, getD_decomp]
  rw [e1]
  have e4 : (l1 ++ q :: (l21 ++ q2 :: l22)).set l1.length ⟨q.Min, q2.Max⟩
      = (l1 ++ (⟨q.Min, q2.Max⟩ : Range) :: l21) ++ q2 :: l22 := by
    rw [set_decomp]
    simp
  rw [e4]
  have e5 : l21.length + (l1.length + 1) = (l1 ++ (⟨q.Min, q2.Max⟩ : Range) :: l21).length := by
    simp
    omega
  rw [e5]
  have h7 : (l1 ++ (⟨q.Min, q2.Max⟩ : Range) :: l21) ++ l22
      = l1 ++ (⟨q.Min, q2.Max⟩ : Range) :: (l21 ++ l22) := by simp
  rw [← h7]
  exact swapRemove_decomp_perm (l1 ++ (⟨q.Min, q2.Max⟩ : Range) :: l21) l22 q2

theorem outer_false {r a : Range} (h : (contigLeft r a || contigRight r a) = false) :
    r.Max + 1 ≠ a.Min ∧ a.Max + 1 ≠ r.Min := by
  rcases Bool.or_eq_false_iff.mp h with ⟨h1, h2⟩
  constructor
  · intro hE
    have h3 : contigLeft r a = true := (contigLeft_iff r a).mpr hE
    rw [h3] at h1
    cases h1
  · intro hE
    have h3 : contigRight r a = true := (contigRight_iff r a).mpr hE
    rw [h3] at h2
    cases h2

/-- A range left- or right-disjoint from `r` and separated from `q` is
separated from the extension `[r.Min, q.Max]` (case `q.Min = r.Max+1`,
no absorbed partner). -/
theorem sep_left_noabsorb (e q r : Range) (he : e.Min ≤ e.Max) (hqn : q.Min ≤ q.Max)
    (hrn : r.Min ≤ r.Max) (hqm : q.Min = r.Max + 1)
    (hd : e.Max < r.Min ∨ r.Max < e.Min)
    (hnadj : e.Max + 1 ≠ r.Min)
    (hsepq : separated e q) :
    separated (⟨r.Min, q.Max⟩ : Range) e := by
  unfold separated at hsepq ⊢
  show q.Max + 2 ≤ e.Min ∨ e.Max + 2 ≤ r.Min
  omega

/-- Separation from the full merge `[q2.Min, q.Max]`
(case `q2.Max+1 = r.Min` and `q.Min = r.Max+1`). -/
theorem sep_left_absorb (e q q2 r : Range) (he : e.Min ≤ e.Max) (hqn : q.Min ≤ q.Max)
    (hq2n : q2.Min ≤ q2.Max) (hrn : r.Min ≤ r.Max)
    (hqm : q.Min = r.Max + 1) (hq2m : q2.Max + 1 = r.Min)
    (hd : e.Max < r.Min ∨ r.Max < e.Min)
    (hsepq : separated e q) (hsepq2 : separated e q2) :
    separated (⟨q2.Min, q.Max⟩ : Range) e := by
  unfold separated at hsepq hsepq2 ⊢
  show q.Max + 2 ≤ e.Min ∨ e.Max + 2 ≤ q2.Min
  omega

/-- Mirror of `sep_left_noabsorb`: extension `[q.Min, r.Max]`
(case `q.Max+1 = r.Min`, no absorbed partner). -/
theorem sep_right_noabsorb (e q r : Range) (he : e.Min ≤ e.Max) (hqn : q.Min ≤ q.Max)
    (hrn : r.Min ≤ r.Max) (hqm : q.Max + 1 = r.Min)
    (hd : e.Max < r.Min ∨ r.Max < e.Min)
    (hnadj : r.Max + 1 ≠ e.Min)
    (hsepq : separated e q) :
    separated (⟨q.Min, r.Max⟩ : Range) e := by
  unfold separated at hsepq ⊢
  show r.Max + 2 ≤ e.Min ∨ e.Max + 2 ≤ q.Min
  omega

/-- Mirror of `sep_left_absorb`: full merge `[q.Min, q2.Max]`
(case `q.Max+1 = r.Min` and `r.Max+1 = q2.Min`). -/
theorem sep_right_absorb (e q q2 r : Range) (he : e.Min ≤ e.Max) (hqn : q.Min ≤ q.Max)
    (hq2n : q2.Min ≤ q2.Max) (hrn : r.Min ≤ r.Max)
    (hqm : q.Max + 1 = r.Min) (hq2m : r.Max + 1 = q2.Min)
    (hd : e.Max < r.Min ∨ r.Max < e.Min)
    (hsepq : separated e q) (hsepq2 : separated e q2) :
    separated (⟨q.Min, q2.Max⟩ : Range) e := by
  unfold separated at hsepq hsepq2 ⊢
  show q2.Max + 2 ≤ e.Min ∨ e.Max + 2 ≤ q.Min
  omega

set_option maxHeartbeats 2000000 in
/-- Correctness of one merge-loop iteration: inserting a nonempty range
that overlaps no existing range keeps the working set well formed and
adds exactly the new range's points to the union. -/
theorem insertRange_spec (rs : List Range) (r : Range)
    (hg : GoodList rs) (hr : r.Min ≤ r.Max)
    (hdisj : ∀ q ∈ rs, q.Max < r.Min ∨ r.Max < q.Min) :
    GoodList (insertRange rs r) ∧
    ∀ x, covered (insertRange rs r) x ↔ (covered rs x ∨ inR r x) := by
  obtain ⟨hne, hpw⟩ := hg
  rcases hfi : firstIdx (fun q => contigLeft r q || contigRight r q) rs with _ | i
  · -- no contiguous range: append r
    have hall := firstIdx_none hfi
    rw [insertRange_eq_append rs r hfi]
    constructor
    · constructor
      · intro e he
        rcases List.mem_append.mp he with he1 | he1
        · exact hne e he1
        · rw [List.mem_singleton.mp he1]
          exact hr
      · rw [List.pairwise_append]
        refine ⟨hpw, List.pairwise_singleton _ _, ?_⟩
        intro a ha b hb
        have hb2 := List.mem_singleton.mp hb
        subst hb2
        obtain ⟨h1, h2⟩ := outer_false (hall a ha)
        have hd := hdisj a ha
        have ha2 := hne a ha
        unfold separated
        omega
    · intro x
      have h0 : covered [r] x ↔ inR r x := by
        rw [covered_cons]
        simp [covered]
      rw [covered_append, h0]
  · -- a contiguous range exists at index i
    obtain ⟨l1, q, l2, hdec, hlen, hq, hpre⟩ := firstIdx_some_decomp hfi
    subst hdec
    subst hlen
    rw [List.pairwise_append] at hpw
    obtain ⟨hpw1, hpwq, hcross⟩ := hpw
    rw [List.pairwise_cons] at hpwq
    obtain ⟨hql2, hpw2⟩ := hpwq
    have hqn : q.Min ≤ q.Max := hne q (by simp)
    have hdq := hdisj q (by simp)
    have mem1 : ∀ e ∈ l1, e ∈ l1 ++ q :: l2 := fun e he => by simp [he]
    have mem2 : ∀ e ∈ l2, e ∈ l1 ++ q :: l2 := fun e he => by simp [he]
    by_cases hL : contigLeft r q = true
    · -- q.Min = r.Max + 1 : r extends q on the left
      have hqm : q.Min = r.Max + 1 := ((contigLeft_iff r q).mp hL).symm
      rcases hfi2 : firstIdx (fun q2 => contigRight r q2) l2 with _ | i2
      · -- no absorbed partner
        have hnoR : ∀ e ∈ l2, e.Max + 1 ≠ r.Min := by
          intro e he hE
          have h3 := firstIdx_none hfi2 e he
          rw [(contigRight_iff r e).mpr hE] at h3
          cases h3
        have hres := insertRange_eq_left_simple l1 l2 q r hfi hL hfi2
        rw [hres]
        have hsepm : ∀ e, e.Min ≤ e.Max → (e.Max < r.Min ∨ r.Max < e.Min) →
            e.Max + 1 ≠ r.Min → separated e q →
            separated (⟨r.Min, q.Max⟩ : Range) e := by
          intro e he hd hnadj hsepq
          exact sep_left_noabsorb e q r he hqn hr hqm hd hnadj hsepq
        constructor
        · constructor
          · intro e he
            rcases List.mem_append.mp he with he1 | he1
            · exact hne e (mem1 e he1)
            · rcases List.mem_cons.mp he1 with rfl | he2
              · show r.Min ≤ q.Max
                omega
              · exact hne e (mem2 e he2)
          · rw [List.pairwise_append]
            refine ⟨hpw1, ?_, ?_⟩
            · rw [List.pairwise_cons]
              refine ⟨?_, hpw2⟩
              intro e he
              exact hsepm e (hne e (mem2 e he)) (hdisj e (mem2 e he)) (hnoR e he)
                (separated_symm (hql2 e he))
            · intro a ha b hb
              rcases List.mem_cons.mp hb with rfl | hb2
              · exact separated_symm (hsepm a (hne a (mem1 a ha)) (hdisj a (mem1 a ha))
                  (outer_false (hpre a ha)).2 (hcross a ha q (by simp)))
              · exact hcross a ha b (by simp [hb2])
        · intro x
          have hmx : inR (⟨r.Min, q.Max⟩ : Range) x ↔ (inR q x ∨ inR r x) := by
            unfold inR
            show (r.Min ≤ x ∧ x ≤ q.Max) ↔ _
            omega
          rw [covered_append, covered_cons, covered_append, covered_cons, hmx]
          tauto
      · -- an absorbed partner q2 with q2.Max + 1 = r.Min
        obtain ⟨l21, q2, l22, hdec2, hlen2, hq2, hpre2⟩ := firstIdx_some_decomp hfi2
        subst hdec2
        subst hlen2
        have hq2m : q2.Max + 1 = r.Min := (contigRight_iff r q2).mp hq2
        rw [List.pairwise_append] at hpw2
        obtain ⟨hpw21, hpwq2c, hcross2⟩ := hpw2
        rw [List.pairwise_cons] at hpwq2c
        obtain ⟨hq2l22, hpw22⟩ := hpwq2c
        have hq2n : q2.Min ≤ q2.Max := hne q2 (by simp)
        have mem21 : ∀ e ∈ l21, e ∈ l1 ++ q :: (l21 ++ q2 :: l22) := fun e he => by simp [he]
        have mem22 : ∀ e ∈ l22, e ∈ l1 ++ q :: (l21 ++ q2 :: l22) := fun e he => by simp [he]
        have hperm := insertRange_eq_left_absorb l1 l21 l22 q q2 r hfi hL hfi2
        have hsepm : ∀ e, e.Min ≤ e.Max → (e.Max < r.Min ∨ r.Max < e.Min) →
            separated e q → separated e q2 →
            separated (⟨q2.Min, q.Max⟩ : Range) e := by
          intro e he hd hsepq hsepq2
          exact sep_left_absorb e q q2 r he hqn hq2n hr hqm hq2m hd hsepq hsepq2
        have hGood : GoodList (l1 ++ (⟨q2.Min, q.Max⟩ : Range) :: (l21 ++ l22)) := by
          constructor
          · intro e he
            rcases List.mem_append.mp he with he1 | he1
            · exact hne e (mem1 e he1)
            · rcases List.mem_cons.mp he1 with rfl | he2
              · show q2.Min ≤ q.Max
                omega
              · rcases List.mem_append.mp he2 with he3 | he3
                · exact hne e (mem21 e he3)
                · exact hne e (mem22 e he3)
          · rw [List.pairwise_append]
            refine ⟨hpw1, ?_, ?_⟩
            · rw [List.pairwise_cons]
              constructor
              · intro e he
                rcases List.mem_append.mp he with he3 | he3
                · exact hsepm e (hne e (mem21 e he3)) (hdisj e (mem21 e he3))
                    (separated_symm (hql2 e (by simp [he3])))
                    (hcross2 e he3 q2 (by simp))
                · exact hsepm e (hne e (mem22 e he3)) (hdisj e (mem22 e he3))
                    (separated_symm (hql2 e (by simp [he3])))
                    (separated_symm (hq2l22 e he3))
              · rw [List.pairwise_append]
                refine ⟨hpw21, hpw22, ?_⟩
                intro a ha b hb
                exact hcross2 a ha b (by simp [hb])
            · intro a ha b hb
              rcases List.mem_cons.mp hb with rfl | hb2
              · exact separated_symm (hsepm a (hne a (mem1 a ha)) (hdisj a (mem1 a ha))
                  (hcross a ha q (by simp)) (hcross a ha q2 (by simp)))
              · rcases List.mem_append.mp hb2 with hb3 | hb3
                · exact hcross a ha b (by simp [hb3])
                · exact hcross a ha b (by simp [hb3])
        constructor
        · exact goodList_perm hperm.symm hGood
        · intro x
          rw [covered_perm hperm x]
          have hmx : inR (⟨q2.Min, q.Max⟩ : Range) x ↔ (inR q x ∨ inR q2 x ∨ inR r x) := by
            unfold inR
            show (q2.Min ≤ x ∧ x ≤ q.Max) ↔ _
            omega
          simp only [covered_append, covered_cons, hmx]
          tauto
    · -- q.Max + 1 = r.Min : r extends q on the right
      have hLR : contigRight r q = true := by
        rcases Bool.or_eq_true_iff.mp hq with h3 | h3
        · exact absurd h3 (by simp [hL])
        · exact h3
      have hL2 : contigLeft r q = false := Bool.eq_false_iff.mpr (by simp [hL])
      have hqm : q.Max + 1 = r.Min := (contigRight_iff r q).mp hLR
      rcases hfi2 : firstIdx (fun q2 => contigLeft r q2) l2 with _ | i2
      · -- no absorbed partner
        have hnoL : ∀ e ∈ l2, r.Max + 1 ≠ e.Min := by
          intro e he hE
          have h3 := firstIdx_none hfi2 e he
          rw [(contigLeft_iff r e).mpr hE] at h3
          cases h3
        have hres := insertRange_eq_right_simple l1 l2 q r hfi hL2 hfi2
        rw [hres]
        have hsepm : ∀ e, e.Min ≤ e.Max → (e.Max < r.Min ∨ r.Max < e.Min) →
            r.Max + 1 ≠ e.Min → separated e q →
            separated (⟨q.Min, r.Max⟩ : Range) e := by
          intro e he hd hnadj hsepq
          exact sep_right_noabsorb e q r he hqn hr hqm hd hnadj hsepq
        constructor
        · constructor
          · intro e he
            rcases List.mem_append.mp he with he1 | he1
            · exact hne e (mem1 e he1)
            · rcases List.mem_cons.mp he1 with rfl | he2
              · show q.Min ≤ r.Max
                omega
              · exact hne e (mem2 e he2)
          · rw [List.pairwise_append]
            refine ⟨hpw1, ?_, ?_⟩
            · rw [List.pairwise_cons]
              refine ⟨?_, hpw2⟩
              intro e he
              exact hsepm e (hne e (mem2 e he)) (hdisj e (mem2 e he)) (hnoL e he)
                (separated_symm (hql2 e he))
            · intro a ha b hb
              rcases List.mem_cons.mp hb with rfl | hb2
              · exact separated_symm (hsepm a (hne a (mem1 a ha)) (hdisj a (mem1 a ha))
                  (fun hE => (outer_false (hpre a ha)).1 hE) (hcross a ha q (by simp)))
              · exact hcross a ha b (by simp [hb2])
        · intro x
          have hmx : inR (⟨q.Min, r.Max⟩ : Range) x ↔ (inR q x ∨ inR r x) := by
            unfold inR
            show (q.Min ≤ x ∧ x ≤ r.Max) ↔ _
            omega
          rw [covered_append, covered_cons, covered_append, covered_cons, hmx]
          tauto
      · -- an absorbed partner q2 with r.Max + 1 = q2.Min
        obtain ⟨l21, q2, l22, hdec2, hlen2, hq2, hpre2⟩ := firstIdx_some_decomp hfi2
        subst hdec2
        subst hlen2
        have hq2m : r.Max + 1 = q2.Min := (contigLeft_iff r q2).mp hq2
        rw [List.pairwise_append] at hpw2
        obtain ⟨hpw21, hpwq2c, hcross2⟩ := hpw2
        rw [List.pairwise_cons] at hpwq2c
        obtain ⟨hq2l22, hpw22⟩ := hpwq2c
        have hq2n : q2.Min ≤ q2.Max := hne q2 (by simp)
        have mem21 : ∀ e ∈ l21, e ∈ l1 ++ q :: (l21 ++ q2 :: l22) := fun e he => by simp [he]
        have mem22 : ∀ e ∈ l22, e ∈ l1 ++ q :: (l21 ++ q2 :: l22) := fun e he => by simp [he]
        have hperm := insertRange_eq_right_absorb l1 l21 l22 q q2 r hfi hL2 hfi2
        have hsepm : ∀ e, e.Min ≤ e.Max → (e.Max < r.Min ∨ r.Max < e.Min) →
            separated e q → separated e q2 →
            separated (⟨q.Min, q2.Max⟩ : Range) e := by
          intro e he hd hsepq hsepq2
          exact sep_right_absorb e q q2 r he hqn hq2n hr hqm hq2m hd hsepq hsepq2
        have hGood : GoodList (l1 ++ (⟨q.Min, q2.Max⟩ : Range) :: (l21 ++ l22)) := by
          constructor
          · intro e he
            rcases List.mem_append.mp he with he1 | he1
            · exact hne e (mem1 e he1)
            · rcases List.mem_cons.mp he1 with rfl | he2
              · show q.Min ≤ q2.Max
                omega
              · rcases List.mem_append.mp he2 with he3 | he3
                · exact hne e (mem21 e he3)
                · exact hne e (mem22 e he3)
          · rw [List.pairwise_append]
            refine ⟨hpw1, ?_, ?_⟩
            · rw [List.pairwise_cons]
              constructor
              · intro e he
                rcases List.mem_append.mp he with he3 | he3
                · exact hsepm e (hne e (mem21 e he3)) (hdisj e (mem21 e he3))
                    (separated_symm (hql2 e (by simp [he3])))
                    (hcross2 e he3 q2 (by simp))
                · exact hsepm e (hne e (mem22 e he3)) (hdisj e (mem22 e he3))
                    (separated_symm (hql2 e (by simp [he3])))
                    (separated_symm (hq2l22 e he3))
              · rw [List.pairwise_append]
                refine ⟨hpw21, hpw22, ?_⟩
                intro a ha b hb
                exact hcross2 a ha b (by simp [hb])
            · intro a ha b hb
              rcases List.mem_cons.mp hb with rfl | hb2
              · exact separated_symm (hsepm a (hne a (mem1 a ha)) (hdisj a (mem1 a ha))
                  (hcross a ha q (by simp)) (hcross a ha q2 (by simp)))
              · rcases List.mem_append.mp hb2 with hb3 | hb3
                · exact hcross a ha b (by simp [hb3])
                · exact hcross a ha b (by simp [hb3])
        constructor
        · exact goodList_perm hperm.symm hGood
        · intro x
          rw [covered_perm hperm x]
          have hmx : inR (⟨q.Min, q2.Max⟩ : Range) x ↔ (inR q x ∨ inR q2 x ∨ inR r x) := by
            unfold inR
            show (q.Min ≤ x ∧ x ≤ q2.Max) ↔ _
            omega
          simp only [covered_append, covered_cons, hmx]
          tauto

/-- The neighbor loop maintains a well-formed working set and computes
exactly the union of the starting set and all inserted blocks, provided
every neighbor is present and all blocks are mutually disjoint and
disjoint from the starting union. -/
theorem rangesLoop_good (minm maxm : Nat) :
    ∀ (ns : List (Option GridCell)) (F : Nat → Prop) (acc : List Range),
      GoodList acc →
      (∀ x, covered acc x ↔ F x) →
      (∀ e ∈ ns, ∃ nc : GridCell, e = some nc) →
      (∀ nc : GridCell, some nc ∈ ns →
        (rangeOfCell minm maxm nc).Min ≤ (rangeOfCell minm maxm nc).Max) →
      (∀ nc : GridCell, some nc ∈ ns →
        ∀ x, inR (rangeOfCell minm maxm nc) x → ¬ F x) →
      List.Pairwise (fun e1 e2 => ∀ nc1 nc2 : GridCell, e1 = some nc1 → e2 = some nc2 →
        ∀ x, ¬(inR (rangeOfCell minm maxm nc1) x ∧ inR (rangeOfCell minm maxm nc2) x)) ns →
      ∃ rs, rangesLoop minm maxm ns acc = some rs ∧ GoodList rs ∧
        (∀ x, covered rs x ↔
          (F x ∨ ∃ nc : GridCell, some nc ∈ ns ∧ inR (rangeOfCell minm maxm nc) x)) := by
  intro ns
  induction ns with
  | nil =>
      intro F acc hg hcov _ _ _ _
      refine ⟨acc, rfl, hg, fun x => ?_⟩
      rw [hcov x]
      simp
  | cons e rest ih =>
      intro F acc hg hcov hsome hwf hdisjF hpw
      obtain ⟨nc, rfl⟩ := hsome e (List.mem_cons_self e rest)
      have hdisj : ∀ q ∈ acc, q.Max < (rangeOfCell minm maxm nc).Min ∨
          (rangeOfCell minm maxm nc).Max < q.Min := by
        intro q hq
        by_contra hcon
        push_neg at hcon
        have hqne := hg.1 q hq
        have hrne := hwf nc (List.mem_cons_self _ _)
        have hxq : inR q (max q.Min (rangeOfCell minm maxm nc).Min) := by
          unfold inR
          omega
        have hxr : inR (rangeOfCell minm maxm nc) (max q.Min (rangeOfCell minm maxm nc).Min) := by
          unfold inR
          omega
        exact hdisjF nc (List.mem_cons_self _ _) _ hxr ((hcov _).mp ⟨q, hq, hxq⟩)
      obtain ⟨hg2, hcov2⟩ := insertRange_spec acc (rangeOfCell minm maxm nc) hg
        (hwf nc (List.mem_cons_self _ _)) hdisj
      obtain ⟨hpwHead, hpwRest⟩ := List.pairwise_cons.mp hpw
      obtain ⟨rs, hrun, hgood, hcovf⟩ := ih (fun x => F x ∨ inR (rangeOfCell minm maxm nc) x)
        (insertRange acc (rangeOfCell minm maxm nc)) hg2
        (fun x => by rw [hcov2 x, hcov x])
        (fun e2 he2 => hsome e2 (List.mem_cons_of_mem _ he2))
        (fun nc2 h2 => hwf nc2 (List.mem_cons_of_mem _ h2))
        (fun nc2 h2 x hx hFx => by
          rcases hFx with hF | hinr
          · exact hdisjF nc2 (List.mem_cons_of_mem _ h2) x hx hF
          · exact hpwHead (some nc2) h2 nc nc2 rfl rfl x ⟨hinr, hx⟩)
        hpwRest
      refine ⟨rs, hrun, hgood, fun x => ?_⟩
      rw [hcovf x]
      simp only [List.mem_cons]
      constructor
      · rintro ((hF | hir) | ⟨nc2, h2, hx⟩)
        · exact Or.inl hF
        · exact Or.inr ⟨nc, Or.inl rfl, hir⟩
        · exact Or.inr ⟨nc2, Or.inr h2, hx⟩
      · rintro (hF | ⟨nc2, (heq | h2), hx⟩)
        · exact Or.inl (Or.inl hF)
        · injection heq with heq
          subst heq
          exact Or.inl (Or.inr hx)
        · exact Or.inr ⟨nc2, h2, hx⟩

/-- `interleave` undoes `deinterleave` on 64-bit codes. -/
theorem interleave_deinterleave (z : Nat) (hz : z < 2^64) :
    interleave (deinterleave z).1 (deinterleave z).2 = z := by
  have h1 : (deinterleave z).1 < 2^32 := Nat.mod_lt _ (by norm_num)
  have h2 : (deinterleave z).2 < 2^32 := Nat.mod_lt _ (by norm_num)
  apply Nat.eq_of_testBit_eq
  intro k
  rw [interleave_testBit _ _ k h1 h2]
  by_cases hk : k % 2 = 0
  · rw [if_pos hk, deinterleave_fst_testBit z _ hz]
    have e : 2 * (k / 2) = k := by omega
    by_cases h64 : k < 64
    · have h32 : k / 2 < 32 := by omega
      simp [h32, e]
    · have h32 : ¬(k / 2 < 32) := by omega
      simp [h32, e, testBit_ge hz (by omega : 64 ≤ k)]
  · rw [if_neg hk, deinterleave_snd_testBit z _ hz]
    have e : 2 * (k / 2) + 1 = k := by omega
    by_cases h64 : k < 64
    · have h32 : k / 2 < 32 := by omega
      simp [h32, e]
    · have h32 : ¬(k / 2 < 32) := by omega
      simp [h32, e, testBit_ge hz (by omega : 64 ≤ k)]

theorem interleave_inj {a b a2 b2 : Nat} (ha : a < 2^32) (hb : b < 2^32)
    (ha2 : a2 < 2^32) (hb2 : b2 < 2^32) (h : interleave a b = interleave a2 b2) :
    a = a2 ∧ b = b2 := by
  have h1 := deinterleave_interleave a b ha hb
  rw [h, deinterleave_interleave a2 b2 ha2 hb2] at h1
  exact ⟨((Prod.ext_iff.mp h1).1).symm, ((Prod.ext_iff.mp h1).2).symm⟩

theorem dvd_of_low_bits_zero {x n : Nat} (h : ∀ t < n, x.testBit t = false) : 2^n ∣ x := by
  have h2 : x % 2^n = 0 := by
    apply Nat.eq_of_testBit_eq
    intro t
    rw [Nat.testBit_mod_two_pow, Nat.zero_testBit]
    by_cases ht : t < n
    · simp [ht, h t ht]
    · simp [ht]
  exact Nat.dvd_of_mod_eq_zero h2

theorem low_bits_zero_of_dvd {x n : Nat} (h : 2^n ∣ x) : ∀ t < n, x.testBit t = false := by
  intro t ht
  obtain ⟨c, rfl⟩ := h
  rw [Nat.testBit_mul_pow_two]
  simp [Nat.not_le_of_lt ht]

theorem dvd_mod_two_pow {d a : Nat} (hd : d ∣ 2^32) (ha : d ∣ a) : d ∣ a % 2^32 := by
  have h1 : a % 2^32 = a - 2^32 * (a / 2^32) := by
    omega
  rw [h1]
  exact Nat.dvd_sub' ha (Dvd.dvd.mul_right hd _)

theorem maxMask_testBit (p k : Nat) : (maxMask p).testBit k = decide (k < 64 - p) := by
  unfold maxMask
  rw [Nat.testBit_shiftRight, Nat.testBit_two_pow_sub_one]
  by_cases h : p + k < 64 <;> by_cases h2 : k < 64 - p
  · simp [h, h2]
  · omega
  · omega
  · simp [h, h2]

theorem minMask_testBit (p k : Nat) :
    (minMask p).testBit k = (decide (64 - p ≤ k) && decide (k < 64)) := by
  unfold minMask
  rw [Nat.testBit_xor, Nat.testBit_two_pow_sub_one, maxMask_testBit]
  by_cases h : k < 64 <;> by_cases h2 : k < 64 - p
  · simp [h, h2]; omega
  · simp [h, h2]; omega
  · omega
  · simp [h, h2]

theorem blocks_disjoint {B v w : Nat} (hv : B ∣ v) (hw : B ∣ w) (hvw : v ≠ w) :
    ∀ x, ¬((v ≤ x ∧ x ≤ v + (B - 1)) ∧ (w ≤ x ∧ x ≤ w + (B - 1))) := by
  intro x hx
  obtain ⟨c1, rfl⟩ := hv
  obtain ⟨c2, rfl⟩ := hw
  have hc : c1 ≠ c2 := by
    intro h
    exact hvw (by rw [h])
  rcases Nat.lt_or_ge c1 c2 with h | h
  · have h2 : B * (c1 + 1) ≤ B * c2 := Nat.mul_le_mul_left B (by omega)
    rw [Nat.mul_add, Nat.mul_one] at h2
    omega
  · have h3 : c2 < c1 := by omega
    have h2 : B * (c2 + 1) ≤ B * c1 := Nat.mul_le_mul_left B (by omega)
    rw [Nat.mul_add, Nat.mul_one] at h2
    omega

/-- A cell whose grid coordinates are block-aligned for precision `p` has
a block-aligned Morton code, and its full-width range is the aligned
block `[code, code + 2^(64-p) - 1]`. -/
theorem rangeOfCell_aligned (p : Nat) (nc : GridCell) (hp2 : p ≤ 64)
    (hlat : nc.latBits < 2^32) (hlon : nc.lonBits < 2^32)
    (hla : 2^((64 - p + 1) / 2) ∣ nc.latBits) (hlo : 2^((64 - p) / 2) ∣ nc.lonBits) :
    2^(64 - p) ∣ cellHash nc ∧
    cellHash nc &&& minMask p = cellHash nc ∧
    cellHash nc ||| maxMask p = cellHash nc + (2^(64 - p) - 1) := by
  have hdvd : 2^(64 - p) ∣ cellHash nc := by
    apply dvd_of_low_bits_zero
    intro t ht
    unfold cellHash
    rw [interleave_testBit _ _ t hlat hlon]
    by_cases hk : t % 2 = 0
    · rw [if_pos hk]
      exact low_bits_zero_of_dvd hla _ (by omega)
    · rw [if_neg hk]
      exact low_bits_zero_of_dvd hlo _ (by omega)
  have hlt : cellHash nc < 2^64 := interleave_lt _ _
  refine ⟨hdvd, ?_, ?_⟩
  · apply Nat.eq_of_testBit_eq
    intro k
    rw [Nat.testBit_and, minMask_testBit]
    by_cases h1 : k < 64 - p
    · rw [low_bits_zero_of_dvd hdvd k h1]
      simp
    · by_cases h2 : k < 64
      · simp [h1, h2]
        omega
      · rw [testBit_ge hlt (by omega)]
        simp
  · obtain ⟨c, hc⟩ := hdvd
    rw [hc, Nat.mul_comm]
    have hb1 : (2:Nat)^(64 - p) - 1 < 2^(64 - p) := by
      have := Nat.one_le_two_pow (n := 64 - p)
      omega
    apply Nat.eq_of_testBit_eq
    intro k
    rw [Nat.testBit_or, maxMask_testBit, Nat.mul_comm c _,
      Nat.testBit_mul_pow_two_add c hb1, Nat.testBit_mul_pow_two]
    by_cases h1 : k < 64 - p
    · simp [h1, Nat.not_le_of_lt h1, Nat.testBit_two_pow_sub_one]
    · simp [h1, Nat.le_of_not_lt h1, Nat.testBit_two_pow_sub_one]

/-- When the latitude step is nonzero it is a power of two
`2^(32 - latPrecision)`, at least the latitude block size of precision
`p`, and the north-check constant is one less than the step. -/
theorem latStep_struct (p : Nat) (hp : p ≤ 64) (h1 : 1 ≤ latStepOf p) :
    ∃ s, s ≤ 31 ∧ (64 - p + 1) / 2 ≤ s ∧ latStepOf p = 2^s ∧ northCheckOf p = 2^s - 1 := by
  have hs0 : latStepOf p = (goShl1 (sub64 32 (latPrecisionOf p))) % 2^32 := rfl
  have hnc : northCheckOf p = (sub64 (goShl1 (sub64 32 (latPrecisionOf p))) 1) % 2^32 := rfl
  have hlp : latPrecisionOf p =
      (if p % 2 = 1 then (p / 2 + (2^64 - 1 % 2^64)) % 2^64 else p / 2) := by
    unfold latPrecisionOf lonPrecisionOf sub64
    by_cases h : p % 2 = 1 <;> simp [h]
  have hbound : (64 - p + 1) / 2 ≤ sub64 32 (latPrecisionOf p) ∧
      sub64 32 (latPrecisionOf p) ≤ 33 := by
    rw [hlp]
    unfold sub64
    by_cases h : p % 2 = 1
    · rw [if_pos h]
      omega
    · rw [if_neg h]
      omega
  set s := sub64 32 (latPrecisionOf p) with hsdef
  by_cases hs31 : s ≤ 31
  · refine ⟨s, hs31, hbound.1, ?_, ?_⟩
    · rw [hs0]
      unfold goShl1
      rw [if_pos (by omega)]
      exact Nat.mod_eq_of_lt (Nat.pow_lt_pow_right (by norm_num) (by omega))
    · rw [hnc]
      unfold goShl1 sub64
      rw [if_pos (by omega)]
      have hp1 : (1:Nat) ≤ 2^s := Nat.one_le_two_pow
      have hp2 : (2:Nat)^s ≤ 2^31 := Nat.pow_le_pow_right (by norm_num) hs31
      omega
  · exfalso
    rw [hs0] at h1
    unfold goShl1 at h1
    by_cases hs64 : s < 64
    · rw [if_pos hs64] at h1
      have hdv : (2:Nat)^32 ∣ 2^s := pow_dvd_pow 2 (by omega)
      have h0 : (2:Nat)^s % 2^32 = 0 := Nat.mod_eq_zero_of_dvd hdv
      omega
    · rw [if_neg hs64] at h1
      simp at h1

/-- When the longitude step is nonzero it is a power of two at least the
longitude block size of precision `p`. -/
theorem lonStep_struct (p : Nat) (hp : p ≤ 64) (h1 : 1 ≤ lonStepOf p) :
    ∃ s, s ≤ 31 ∧ (64 - p) / 2 ≤ s ∧ lonStepOf p = 2^s := by
  have hs0 : lonStepOf p = (goShl1 (sub64 32 (lonPrecisionOf p))) % 2^32 := rfl
  have hbound : (64 - p) / 2 ≤ sub64 32 (lonPrecisionOf p) ∧
      sub64 32 (lonPrecisionOf p) ≤ 32 := by
    unfold lonPrecisionOf sub64
    omega
  set s := sub64 32 (lonPrecisionOf p) with hsdef
  by_cases hs31 : s ≤ 31
  · refine ⟨s, hs31, hbound.1, ?_⟩
    rw [hs0]
    unfold goShl1
    rw [if_pos (by omega)]
    exact Nat.mod_eq_of_lt (Nat.pow_lt_pow_right (by norm_num) (by omega))
  · exfalso
    rw [hs0] at h1
    unfold goShl1 at h1
    by_cases hs64 : s < 64
    · rw [if_pos hs64] at h1
      have hdv : (2:Nat)^32 ∣ 2^s := pow_dvd_pow 2 (by omega)
      have h0 : (2:Nat)^s % 2^32 = 0 := Nat.mod_eq_zero_of_dvd hdv
      omega
    · rw [if_neg hs64] at h1
      simp at h1

/-- In the interior of the latitude grid (at least one step from both
poles), all eight neighbors exist, with the expected grid coordinates. -/
theorem neighbors_interior (c : GridCell) (hp : c.precision ≤ 64)
    (hlat : c.latBits < 2^32)
    (hS1 : 1 ≤ latStepOf c.precision)
    (hS2 : latStepOf c.precision ≤ c.latBits)
    (hS3 : c.latBits + latStepOf c.precision < 2^32) :
    GetNeighbors c = [
      some ⟨c.latBits + latStepOf c.precision, c.lonBits, c.precision⟩,
      some ⟨c.latBits + latStepOf c.precision,
        (c.lonBits + lonStepOf c.precision) % 2^32, c.precision⟩,
      some ⟨c.latBits, (c.lonBits + lonStepOf c.precision) % 2^32, c.precision⟩,
      some ⟨c.latBits - latStepOf c.precision,
        (c.lonBits + lonStepOf c.precision) % 2^32, c.precision⟩,
      some ⟨c.latBits - latStepOf c.precision, c.lonBits, c.precision⟩,
      some ⟨c.latBits - latStepOf c.precision,
        sub32 c.lonBits (lonStepOf c.precision), c.precision⟩,
      some ⟨c.latBits, sub32 c.lonBits (lonStepOf c.precision), c.precision⟩,
      some ⟨c.latBits + latStepOf c.precision,
        sub32 c.lonBits (lonStepOf c.precision), c.precision⟩] := by
  obtain ⟨s, hs31, _, hSeq, hNCeq⟩ := latStep_struct c.precision hp hS1
  have hps : (2:Nat)^s ≤ 2^31 := Nat.pow_le_pow_right (by norm_num) hs31
  have hnorth : ¬(sub32 c.latBits (northCheckOf c.precision) = 0) := by
    rw [hNCeq]
    unfold sub32
    rw [hSeq] at hS2
    omega
  have hsouth : ¬(c.latBits = 0) := by
    rw [hSeq] at hS2
    omega
  have hNadd : (c.latBits + latStepOf c.precision) % 2^32
      = c.latBits + latStepOf c.precision := Nat.mod_eq_of_lt hS3
  have hSsub : sub32 c.latBits (latStepOf c.precision)
      = c.latBits - latStepOf c.precision := by
    unfold sub32
    rw [hSeq] at hS2 ⊢
    omega
  unfold GetNeighbors
  unfold GetAdjacent
  rw [if_neg hnorth, if_neg hnorth, if_neg hnorth, if_neg hsouth, if_neg hsouth,
    if_neg hsouth, hNadd, hSsub]

set_option maxHeartbeats 4000000 in
/-- C4: for an interior cell (both latitude neighbors inside the grid,
a nonzero longitude step that is not half the circle), the merge loop
returns normally; no two returned ranges overlap or are directly
adjacent (every pair is separated by at least one value), and the union
of the returned ranges is exactly the self cell's full range together
with all 8 neighbors' full ranges at the selected precision.  The
`float64` precision selector is not modelled: the theorem quantifies
over every precision it could select, which covers every radius. -/
theorem C4_range_coverage (f : HashGeoHash) (p : Nat)
    (hp1 : 1 ≤ p) (hp2 : p ≤ 64)
    (hS1 : 1 ≤ latStepOf p)
    (hL1 : 1 ≤ lonStepOf p) (hL2 : lonStepOf p ≠ 2^31)
    (hS2 : latStepOf p ≤ (truncCell f p).latBits)
    (hS3 : (truncCell f p).latBits + latStepOf p < 2^32) :
    ∃ rs, GetHashRangesInsideAt f p = some rs ∧
      rs.Pairwise separated ∧
      (∀ x, covered rs x ↔
        (inR (rangeOfCell (minMask p) (maxMask p) (truncCell f p)) x ∨
          ∃ nc : GridCell, some nc ∈ GetNeighbors (truncCell f p) ∧
            inR (rangeOfCell (minMask p) (maxMask p) nc) x)) := by
  have hmh_lt : (f.GetInPrecision p).hash < 2^64 := by
    show f.hash &&& hashMask p < 2^64
    apply Nat.and_lt_two_pow
    unfold hashMask
    have h1 : sub64 (goShl1 (sub64 64 p)) 1 < 2^64 := Nat.mod_lt _ (by norm_num)
    have h2 : (2:Nat)^64 - 1 < 2^64 := by norm_num
    exact Nat.xor_lt_two_pow h2 h1
  have hlatlt : (truncCell f p).latBits < 2^32 := Nat.mod_lt _ (by norm_num)
  have hlonlt : (truncCell f p).lonBits < 2^32 := Nat.mod_lt _ (by norm_num)
  have hmh_low : ∀ t, t < 64 - p → (f.GetInPrecision p).hash.testBit t = false := by
    intro t ht
    show (f.hash &&& hashMask p).testBit t = false
    rw [Nat.testBit_and, hashMask_testBit p t hp1 hp2]
    have h2 : ¬(64 - p ≤ t) := by omega
    simp [h2]
  have hlat_dvd : 2^((64 - p + 1) / 2) ∣ (truncCell f p).latBits := by
    apply dvd_of_low_bits_zero
    intro t ht
    show (deinterleave (f.GetInPrecision p).hash).1.testBit t = false
    rw [deinterleave_fst_testBit _ t hmh_lt]
    by_cases h32 : t < 32
    · rw [hmh_low (2 * t) (by omega)]
      simp
    · simp [h32]
  have hlon_dvd : 2^((64 - p) / 2) ∣ (truncCell f p).lonBits := by
    apply dvd_of_low_bits_zero
    intro t ht
    show (deinterleave (f.GetInPrecision p).hash).2.testBit t = false
    rw [deinterleave_snd_testBit _ t hmh_lt]
    by_cases h32 : t < 32
    · rw [hmh_low (2 * t + 1) (by omega)]
      simp
    · simp [h32]
  obtain ⟨sA, hsA31, hsAb, hSeq, hNCeq⟩ := latStep_struct p hp2 hS1
  obtain ⟨sB, hsB31, hsBb, hLeq⟩ := lonStep_struct p hp2 hL1
  have hSdvd : 2^((64 - p + 1) / 2) ∣ latStepOf p := by
    rw [hSeq]
    exact pow_dvd_pow 2 hsAb
  have hLdvd : 2^((64 - p) / 2) ∣ lonStepOf p := by
    rw [hLeq]
    exact pow_dvd_pow 2 hsBb
  have hLlt : lonStepOf p < 2^32 := by
    rw [hLeq]
    exact Nat.pow_lt_pow_right (by norm_num) (by omega)
  have h232 : (2:Nat)^((64 - p) / 2) ∣ 2^32 := pow_dvd_pow 2 (by omega)
  have hE_eq : ((truncCell f p).lonBits + lonStepOf p) % 2^32
      = ((truncCell f p).lonBits + lonStepOf p) % 2^32 := rfl
  have hW_eq : sub32 (truncCell f p).lonBits (lonStepOf p)
      = ((truncCell f p).lonBits + (2^32 - lonStepOf p % 2^32)) % 2^32 := rfl
  have hlonE_lt : ((truncCell f p).lonBits + lonStepOf p) % 2^32 < 2^32 :=
    Nat.mod_lt _ (by norm_num)
  have hlonW_lt : sub32 (truncCell f p).lonBits (lonStepOf p) < 2^32 := by
    rw [hW_eq]
    exact Nat.mod_lt _ (by norm_num)
  have hlonE_dvd : 2^((64 - p) / 2) ∣ ((truncCell f p).lonBits + lonStepOf p) % 2^32 :=
    dvd_mod_two_pow h232 (Nat.dvd_add hlon_dvd hLdvd)
  have hlonW_dvd : 2^((64 - p) / 2) ∣ sub32 (truncCell f p).lonBits (lonStepOf p) := by
    rw [hW_eq]
    apply dvd_mod_two_pow h232
    apply Nat.dvd_add hlon_dvd
    rw [Nat.mod_eq_of_lt hLlt]
    exact Nat.dvd_sub' h232 hLdvd
  have hlatN_dvd : 2^((64 - p + 1) / 2) ∣ (truncCell f p).latBits + latStepOf p :=
    Nat.dvd_add hlat_dvd hSdvd
  have hlatS_dvd : 2^((64 - p + 1) / 2) ∣ (truncCell f p).latBits - latStepOf p :=
    Nat.dvd_sub' hlat_dvd hSdvd
  have hcH : cellHash (truncCell f p) = (f.GetInPrecision p).hash :=
    interleave_deinterleave _ hmh_lt
  -- block shape of an aligned cell's range
  have hinRb : ∀ (nc : GridCell), nc.latBits < 2^32 → nc.lonBits < 2^32 →
      2^((64 - p + 1) / 2) ∣ nc.latBits → 2^((64 - p) / 2) ∣ nc.lonBits →
      ∀ x, inR (rangeOfCell (minMask p) (maxMask p) nc) x ↔
        (cellHash nc ≤ x ∧ x ≤ cellHash nc + (2^(64 - p) - 1)) := by
    intro nc h1 h2 h3 h4 x
    obtain ⟨hd, hmin, hmax⟩ := rangeOfCell_aligned p nc hp2 h1 h2 h3 h4
    show cellHash nc &&& minMask p ≤ x ∧ x ≤ (cellHash nc ||| maxMask p) ↔ _
    rw [hmin, hmax]
  have hdvdH : ∀ (nc : GridCell), nc.latBits < 2^32 → nc.lonBits < 2^32 →
      2^((64 - p + 1) / 2) ∣ nc.latBits → 2^((64 - p) / 2) ∣ nc.lonBits →
      2^(64 - p) ∣ cellHash nc := by
    intro nc h1 h2 h3 h4
    exact (rangeOfCell_aligned p nc hp2 h1 h2 h3 h4).1
  have hwfb : ∀ (nc : GridCell), nc.latBits < 2^32 → nc.lonBits < 2^32 →
      2^((64 - p + 1) / 2) ∣ nc.latBits → 2^((64 - p) / 2) ∣ nc.lonBits →
      (rangeOfCell (minMask p) (maxMask p) nc).Min ≤ (rangeOfCell (minMask p) (maxMask p) nc).Max := by
    intro nc h1 h2 h3 h4
    obtain ⟨hd, hmin, hmax⟩ := rangeOfCell_aligned p nc hp2 h1 h2 h3 h4
    show cellHash nc &&& minMask p ≤ (cellHash nc ||| maxMask p)
    rw [hmin, hmax]
    omega
  have hrel : ∀ (nc1 nc2 : GridCell),
      nc1.latBits < 2^32 → nc1.lonBits < 2^32 →
      2^((64 - p + 1) / 2) ∣ nc1.latBits → 2^((64 - p) / 2) ∣ nc1.lonBits →
      nc2.latBits < 2^32 → nc2.lonBits < 2^32 →
      2^((64 - p + 1) / 2) ∣ nc2.latBits → 2^((64 - p) / 2) ∣ nc2.lonBits →
      (nc1.latBits ≠ nc2.latBits ∨ nc1.lonBits ≠ nc2.lonBits) →
      ∀ x, ¬(inR (rangeOfCell (minMask p) (maxMask p) nc1) x ∧
             inR (rangeOfCell (minMask p) (maxMask p) nc2) x) := by
    intro nc1 nc2 a1 a2 a3 a4 b1 b2 b3 b4 hne12 x hx
    rw [hinRb nc1 a1 a2 a3 a4 x, hinRb nc2 b1 b2 b3 b4 x] at hx
    have hcne : cellHash nc1 ≠ cellHash nc2 := by
      intro heq
      obtain ⟨e1, e2⟩ := interleave_inj a1 a2 b1 b2 heq
      rcases hne12 with h | h
      · exact h e1
      · exact h e2
    exact blocks_disjoint (hdvdH nc1 a1 a2 a3 a4) (hdvdH nc2 b1 b2 b3 b4) hcne x hx
  have hrelS : ∀ (la1 lo1 la2 lo2 : Nat),
      la1 < 2^32 → lo1 < 2^32 → 2^((64 - p + 1) / 2) ∣ la1 → 2^((64 - p) / 2) ∣ lo1 →
      la2 < 2^32 → lo2 < 2^32 → 2^((64 - p + 1) / 2) ∣ la2 → 2^((64 - p) / 2) ∣ lo2 →
      (la1 ≠ la2 ∨ lo1 ≠ lo2) →
      ∀ nc1 nc2 : GridCell, (some (⟨la1, lo1, p⟩ : GridCell) = some nc1) →
        (some (⟨la2, lo2, p⟩ : GridCell) = some nc2) →
        ∀ x, ¬(inR (rangeOfCell (minMask p) (maxMask p) nc1) x ∧
               inR (rangeOfCell (minMask p) (maxMask p) nc2) x) := by
    intro la1 lo1 la2 lo2 a1 a2 a3 a4 b1 b2 b3 b4 hne12 nc1 nc2 h1 h2
    injection h1 with h1
    injection h2 with h2
    subst h1
    subst h2
    exact hrel _ _ a1 a2 a3 a4 b1 b2 b3 b4 hne12
  have hlatSlt : (truncCell f p).latBits - latStepOf p < 2^32 := by omega
  have hNL := neighbors_interior (truncCell f p) hp2 hlatlt hS1 hS2 hS3
  rw [show (truncCell f p).precision = p from rfl] at hNL
  obtain ⟨rs, hrun, hgood, hcovf⟩ := rangesLoop_good (minMask p) (maxMask p)
    [some ⟨(truncCell f p).latBits + latStepOf p, (truncCell f p).lonBits, p⟩,
     some ⟨(truncCell f p).latBits + latStepOf p,
       ((truncCell f p).lonBits + lonStepOf p) % 2^32, p⟩,
     some ⟨(truncCell f p).latBits, ((truncCell f p).lonBits + lonStepOf p) % 2^32, p⟩,
     some ⟨(truncCell f p).latBits - latStepOf p,
       ((truncCell f p).lonBits + lonStepOf p) % 2^32, p⟩,
     some ⟨(truncCell f p).latBits - latStepOf p, (truncCell f p).lonBits, p⟩,
     some ⟨(truncCell f p).latBits - latStepOf p,
       sub32 (truncCell f p).lonBits (lonStepOf p), p⟩,
     some ⟨(truncCell f p).latBits, sub32 (truncCell f p).lonBits (lonStepOf p), p⟩,
     some ⟨(truncCell f p).latBits + latStepOf p,
       sub32 (truncCell f p).lonBits (lonStepOf p), p⟩]
    (inR (rangeOfCell (minMask p) (maxMask p) (truncCell f p)))
    [rangeOfCell (minMask p) (maxMask p) (truncCell f p)]
    (by
      constructor
      · intro e he
        rcases List.mem_singleton.mp he with rfl
        exact hwfb (truncCell f p) hlatlt hlonlt hlat_dvd hlon_dvd
      · exact List.pairwise_singleton _ _)
    (by
      intro x
      rw [covered_cons]
      simp [covered])
    (by
      intro e he
      simp only [List.mem_cons, List.not_mem_nil, or_false] at he
      rcases he with rfl | rfl | rfl | rfl | rfl | rfl | rfl | rfl <;> exact ⟨_, rfl⟩)
    (by
      intro nc h
      simp only [List.mem_cons, List.not_mem_nil, or_false, Option.some.injEq] at h
      rcases h with rfl | rfl | rfl | rfl | rfl | rfl | rfl | rfl
      · exact hwfb _ hS3 hlonlt hlatN_dvd hlon_dvd
      · exact hwfb _ hS3 hlonE_lt hlatN_dvd hlonE_dvd
      · exact hwfb _ hlatlt hlonE_lt hlat_dvd hlonE_dvd
      · exact hwfb _ hlatSlt hlonE_lt hlatS_dvd hlonE_dvd
      · exact hwfb _ hlatSlt hlonlt hlatS_dvd hlon_dvd
      · exact hwfb _ hlatSlt hlonW_lt hlatS_dvd hlonW_dvd
      · exact hwfb _ hlatlt hlonW_lt hlat_dvd hlonW_dvd
      · exact hwfb _ hS3 hlonW_lt hlatN_dvd hlonW_dvd)
    (by
      intro nc h x hx hx0
      simp only [List.mem_cons, List.not_mem_nil, or_false, Option.some.injEq] at h
      rcases h with rfl | rfl | rfl | rfl | rfl | rfl | rfl | rfl
      · exact hrel (⟨(truncCell f p).latBits + latStepOf p, (truncCell f p).lonBits, p⟩ : GridCell) (truncCell f p)
          hS3 hlonlt hlatN_dvd hlon_dvd hlatlt hlonlt hlat_dvd hlon_dvd
          (by left; show (truncCell f p).latBits + latStepOf p ≠ (truncCell f p).latBits; omega) x ⟨hx, hx0⟩
      · exact hrel (⟨(truncCell f p).latBits + latStepOf p, ((truncCell f p).lonBits + lonStepOf p) % 2^32, p⟩ : GridCell) (truncCell f p)
          hS3 hlonE_lt hlatN_dvd hlonE_dvd hlatlt hlonlt hlat_dvd hlon_dvd
          (by left; show (truncCell f p).latBits + latStepOf p ≠ (truncCell f p).latBits; omega) x ⟨hx, hx0⟩
      · exact hrel (⟨(truncCell f p).latBits, ((truncCell f p).lonBits + lonStepOf p) % 2^32, p⟩ : GridCell) (truncCell f p)
          hlatlt hlonE_lt hlat_dvd hlonE_dvd hlatlt hlonlt hlat_dvd hlon_dvd
          (by right; show ((truncCell f p).lonBits + lonStepOf p) % 2^32 ≠ (truncCell f p).lonBits; omega) x ⟨hx, hx0⟩
      · exact hrel (⟨(truncCell f p).latBits - latStepOf p, ((truncCell f p).lonBits + lonStepOf p) % 2^32, p⟩ : GridCell) (truncCell f p)
          hlatSlt hlonE_lt hlatS_dvd hlonE_dvd hlatlt hlonlt hlat_dvd hlon_dvd
          (by left; show (truncCell f p).latBits - latStepOf p ≠ (truncCell f p).latBits; omega) x ⟨hx, hx0⟩
      · exact hrel (⟨(truncCell f p).latBits - latStepOf p, (truncCell f p).lonBits, p⟩ : GridCell) (truncCell f p)
          hlatSlt hlonlt hlatS_dvd hlon_dvd hlatlt hlonlt hlat_dvd hlon_dvd
          (by left; show (truncCell f p).latBits - latStepOf p ≠ (truncCell f p).latBits; omega) x ⟨hx, hx0⟩
      · exact hrel (⟨(truncCell f p).latBits - latStepOf p, sub32 (truncCell f p).lonBits (lonStepOf p), p⟩ : GridCell) (truncCell f p)
          hlatSlt hlonW_lt hlatS_dvd hlonW_dvd hlatlt hlonlt hlat_dvd hlon_dvd
          (by left; show (truncCell f p).latBits - latStepOf p ≠ (truncCell f p).latBits; omega) x ⟨hx, hx0⟩
      · exact hrel (⟨(truncCell f p).latBits, sub32 (truncCell f p).lonBits (lonStepOf p), p⟩ : GridCell) (truncCell f p)
          hlatlt hlonW_lt hlat_dvd hlonW_dvd hlatlt hlonlt hlat_dvd hlon_dvd
          (by right; show sub32 (truncCell f p).lonBits (lonStepOf p) ≠ (truncCell f p).lonBits; omega) x ⟨hx, hx0⟩
      · exact hrel (⟨(truncCell f p).latBits + latStepOf p, sub32 (truncCell f p).lonBits (lonStepOf p), p⟩ : GridCell) (truncCell f p)
          hS3 hlonW_lt hlatN_dvd hlonW_dvd hlatlt hlonlt hlat_dvd hlon_dvd
          (by left; show (truncCell f p).latBits + latStepOf p ≠ (truncCell f p).latBits; omega) x ⟨hx, hx0⟩)
    (by
      refine List.Pairwise.cons ?_ (List.Pairwise.cons ?_ (List.Pairwise.cons ?_
        (List.Pairwise.cons ?_ (List.Pairwise.cons ?_ (List.Pairwise.cons ?_
        (List.Pairwise.cons ?_ (List.Pairwise.cons ?_ List.Pairwise.nil)))))))
      · intro e he
        simp only [List.mem_cons, List.not_mem_nil, or_false] at he
        rcases he with rfl | rfl | rfl | rfl | rfl | rfl | rfl
        · exact hrelS _ _ _ _ hS3 hlonlt hlatN_dvd hlon_dvd hS3 hlonE_lt hlatN_dvd hlonE_dvd
            (by right; omega)
        · exact hrelS _ _ _ _ hS3 hlonlt hlatN_dvd hlon_dvd hlatlt hlonE_lt hlat_dvd hlonE_dvd
            (by left; omega)
        · exact hrelS _ _ _ _ hS3 hlonlt hlatN_dvd hlon_dvd hlatSlt hlonE_lt hlatS_dvd hlonE_dvd
            (by left; omega)
        · exact hrelS _ _ _ _ hS3 hlonlt hlatN_dvd hlon_dvd hlatSlt hlonlt hlatS_dvd hlon_dvd
            (by left; omega)
        · exact hrelS _ _ _ _ hS3 hlonlt hlatN_dvd hlon_dvd hlatSlt hlonW_lt hlatS_dvd hlonW_dvd
            (by left; omega)
        · exact hrelS _ _ _ _ hS3 hlonlt hlatN_dvd hlon_dvd hlatlt hlonW_lt hlat_dvd hlonW_dvd
            (by left; omega)
        · exact hrelS _ _ _ _ hS3 hlonlt hlatN_dvd hlon_dvd hS3 hlonW_lt hlatN_dvd hlonW_dvd
            (by right; omega)
      · intro e he
        simp only [List.mem_cons, List.not_mem_nil, or_false] at he
        rcases he with rfl | rfl | rfl | rfl | rfl | rfl
        · exact hrelS _ _ _ _ hS3 hlonE_lt hlatN_dvd hlonE_dvd hlatlt hlonE_lt hlat_dvd hlonE_dvd
            (by left; omega)
        · exact hrelS _ _ _ _ hS3 hlonE_lt hlatN_dvd hlonE_dvd hlatSlt hlonE_lt hlatS_dvd hlonE_dvd
            (by left; omega)
        · exact hrelS _ _ _ _ hS3 hlonE_lt hlatN_dvd hlonE_dvd hlatSlt hlonlt hlatS_dvd hlon_dvd
            (by left; omega)
        · exact hrelS _ _ _ _ hS3 hlonE_lt hlatN_dvd hlonE_dvd hlatSlt hlonW_lt hlatS_dvd hlonW_dvd
            (by left; omega)
        · exact hrelS _ _ _ _ hS3 hlonE_lt hlatN_dvd hlonE_dvd hlatlt hlonW_lt hlat_dvd hlonW_dvd
            (by left; omega)
        · exact hrelS _ _ _ _ hS3 hlonE_lt hlatN_dvd hlonE_dvd hS3 hlonW_lt hlatN_dvd hlonW_dvd
            (by right; omega)
      · intro e he
        simp only [List.mem_cons, List.not_mem_nil, or_false] at he
        rcases he with rfl | rfl | rfl | rfl | rfl
        · exact hrelS _ _ _ _ hlatlt hlonE_lt hlat_dvd hlonE_dvd hlatSlt hlonE_lt hlatS_dvd hlonE_dvd
            (by left; omega)
        · exact hrelS _ _ _ _ hlatlt hlonE_lt hlat_dvd hlonE_dvd hlatSlt hlonlt hlatS_dvd hlon_dvd
            (by left; omega)
        · exact hrelS _ _ _ _ hlatlt hlonE_lt hlat_dvd hlonE_dvd hlatSlt hlonW_lt hlatS_dvd hlonW_dvd
            (by left; omega)
        · exact hrelS _ _ _ _ hlatlt hlonE_lt hlat_dvd hlonE_dvd hlatlt hlonW_lt hlat_dvd hlonW_dvd
            (by right; omega)
        · exact hrelS _ _ _ _ hlatlt hlonE_lt hlat_dvd hlonE_dvd hS3 hlonW_lt hlatN_dvd hlonW_dvd
            (by left; omega)
      · intro e he
        simp only [List.mem_cons, List.not_mem_nil, or_false] at he
        rcases he with rfl | rfl | rfl | rfl
        · exact hrelS _ _ _ _ hlatSlt hlonE_lt hlatS_dvd hlonE_dvd hlatSlt hlonlt hlatS_dvd hlon_dvd
            (by right; omega)
        · exact hrelS _ _ _ _ hlatSlt hlonE_lt hlatS_dvd hlonE_dvd hlatSlt hlonW_lt hlatS_dvd hlonW_dvd
            (by right; omega)
        · exact hrelS _ _ _ _ hlatSlt hlonE_lt hlatS_dvd hlonE_dvd hlatlt hlonW_lt hlat_dvd hlonW_dvd
            (by left; omega)
        · exact hrelS _ _ _ _ hlatSlt hlonE_lt hlatS_dvd hlonE_dvd hS3 hlonW_lt hlatN_dvd hlonW_dvd
            (by left; omega)
      · intro e he
        simp only [List.mem_cons, List.not_mem_nil, or_false] at he
        rcases he with rfl | rfl | rfl
        · exact hrelS _ _ _ _ hlatSlt hlonlt hlatS_dvd hlon_dvd hlatSlt hlonW_lt hlatS_dvd hlonW_dvd
            (by right; omega)
        · exact hrelS _ _ _ _ hlatSlt hlonlt hlatS_dvd hlon_dvd hlatlt hlonW_lt hlat_dvd hlonW_dvd
            (by left; omega)
        · exact hrelS _ _ _ _ hlatSlt hlonlt hlatS_dvd hlon_dvd hS3 hlonW_lt hlatN_dvd hlonW_dvd
            (by left; omega)
      · intro e he
        simp only [List.mem_cons, List.not_mem_nil, or_false] at he
        rcases he with rfl | rfl
        · exact hrelS _ _ _ _ hlatSlt hlonW_lt hlatS_dvd hlonW_dvd hlatlt hlonW_lt hlat_dvd hlonW_dvd
            (by left; omega)
        · exact hrelS _ _ _ _ hlatSlt hlonW_lt hlatS_dvd hlonW_dvd hS3 hlonW_lt hlatN_dvd hlonW_dvd
            (by left; omega)
      · intro e he
        simp only [List.mem_cons, List.not_mem_nil, or_false] at he
        rcases he with rfl
        exact hrelS _ _ _ _ hlatlt hlonW_lt hlat_dvd hlonW_dvd hS3 hlonW_lt hlatN_dvd hlonW_dvd
          (by left; omega)
      · intro e he
        simp at he)
  refine ⟨rs, ?_, hgood.2, ?_⟩
  · show GetHashRangesInsideAt f p = some rs
    unfold GetHashRangesInsideAt
    rw [hNL, ← hcH]
    exact hrun
  · intro x
    rw [hNL]
    exact hcovf x

/-- Witness for C4 at the concrete code 0xC000000000000000 (latitude and
longitude grid coordinates both 2^31) with selected precision 8. -/
theorem C4_range_coverage_witness :
    1 ≤ 8 ∧ 8 ≤ 64 ∧ 1 ≤ latStepOf 8 ∧ 1 ≤ lonStepOf 8 ∧
    lonStepOf 8 ≠ 2^31 ∧
    latStepOf 8 ≤ (truncCell (FromHash 0xC000000000000000 64) 8).latBits ∧
    (truncCell (FromHash 0xC000000000000000 64) 8).latBits + latStepOf 8 < 2^32 ∧
    (∃ rs, GetHashRangesInsideAt (FromHash 0xC000000000000000 64) 8 = some rs ∧
      rs.Pairwise separated ∧
      (∀ x, covered rs x ↔
        (inR (rangeOfCell (minMask 8) (maxMask 8)
            (truncCell (FromHash 0xC000000000000000 64) 8)) x ∨
          ∃ nc : GridCell,
            some nc ∈ GetNeighbors (truncCell (FromHash 0xC000000000000000 64) 8) ∧
            inR (rangeOfCell (minMask 8) (maxMask 8) nc) x))) :=
  ⟨by decide, by decide, by decide, by decide, by decide, by decide, by decide,
    C4_range_coverage (FromHash 0xC000000000000000 64) 8 (by decide) (by decide)
      (by decide) (by decide) (by decide) (by decide) (by decide)⟩
